import Mathlib

/-!
# Verification of the Graph generator / BFS / DFS repository

Shallow embedding of `ALG_LAB4/ALG_LAB4.cpp`:
* `Graph`, its constructor, `add_edge`, the accessors, and `get_inc_matrix`
  (with its cache) are translated to pure Lean functions with explicit state
  passing (`vector<vector<int>>` becomes `List (List Int)`; the indexing
  helpers `getv`/`setv` mirror in-range `operator[]` reads/writes).
* `generate_graph` is translated with the C library `rand()` stream abstracted
  as a function `rnd : Nat → Nat` (value of the i-th `rand()` call) and the
  unbounded rejection `while` loop given explicit fuel (the code's loop has no
  bound; non-termination shows up as the fuel never sufficing).
* `bfs_shortest_path` / `dfs_shortest_path` are translated with their
  `while` loops given fuel `n*n + n + 1` and the parent-chain reconstruction
  loop given fuel `n + 1`; both bounds are proved sufficient below (the final
  queue/stack is empty and the reconstruction reaches `-1`).
-/

namespace AlgLab4

/-- Read `m[u][v]` of a `vector<vector<int>>`; out-of-range reads default to
`0`/`[]` (in-range behavior is all the theorems rely on). -/
def getv (m : List (List Int)) (u v : Nat) : Int :=
  (m.getD u []).getD v 0

/-- Write `m[u][v] = w`; out of range this is a no-op (the C++ would be UB,
see `add_edge?` below for the explicit out-of-range model). -/
def setv (m : List (List Int)) (u v : Nat) (w : Int) : List (List Int) :=
  m.set u ((m.getD u []).set v w)

/-- The `Graph` class state: `vertices_`, `directed_`, `adj_matrix_`,
`adj_list_`, `edges_`, `inc_matrix_` (the incidence-matrix cache). -/
structure Graph where
  vertices : Nat
  directed : Bool
  adj_matrix : List (List Int)
  adj_list : List (List (Nat × Int))
  edges : List (Nat × Nat)
  inc_matrix : List (List Int)
deriving Repr, DecidableEq

/-- `Graph::Graph(int vertices, bool directed)`: zero `vertices × vertices`
adjacency matrix, `vertices` empty adjacency lists, no edges, empty cache. -/
def mkGraph (vertices : Nat) (directed : Bool) : Graph :=
  { vertices := vertices
    directed := directed
    adj_matrix := List.replicate vertices (List.replicate vertices 0)
    adj_list := List.replicate vertices []
    edges := []
    inc_matrix := [] }

/-- `Graph::add_edge(int u, int v, int weight)`.  The C++ performs
`adj_matrix_[u][v] = weight`, appends `(v, weight)` to `adj_list_[u]`,
appends `(u, v)` to `edges_`, and then either re-assigns `adj_matrix_[u][v]`
(directed) or assigns `adj_matrix_[v][u]` followed by `adj_matrix_[u][v]`
(undirected, the chained assignment on line 109). -/
def add_edge (g : Graph) (u v : Nat) (weight : Int) : Graph :=
  let m1 := setv g.adj_matrix u v weight
  let al := g.adj_list.set u ((g.adj_list.getD u []) ++ [(v, weight)])
  let es := g.edges ++ [(u, v)]
  let m2 := if g.directed then setv m1 u v weight
            else setv (setv m1 v u weight) u v weight
  { g with adj_matrix := m2, adj_list := al, edges := es }

/-- `Graph::get_adj_matrix()` (returns a copy of the stored matrix). -/
def get_adj_matrix (g : Graph) : List (List Int) :=
  g.adj_matrix

/-- `Graph::get_adj_list()`. -/
def get_adj_list (g : Graph) : List (List (Nat × Int)) :=
  g.adj_list

/-- `Graph::get_edges()`. -/
def get_edges (g : Graph) : List (Nat × Nat) :=
  g.edges

/-- One iteration of the `get_inc_matrix` build loop at edge index `i`:
with `edges_[i] = (u, v)` and `weight = abs(adj_matrix_[u][v])`, set
`inc_matrix_[u][i] = weight` and then
`inc_matrix_[v][i] = directed_ ? -weight : weight`. -/
def inc_step (g : Graph) (acc : List (List Int)) (i : Nat) : List (List Int) :=
  let u := (g.edges.getD i (0, 0)).1
  let v := (g.edges.getD i (0, 0)).2
  let weight : Int := (getv g.adj_matrix u v).natAbs
  setv (setv acc u i weight) v i (if g.directed then -weight else weight)

/-- The matrix built by `Graph::get_inc_matrix()` when the cache is empty:
start from a `vertices_ × edges_.size()` zero matrix and run the build loop
over all edge indices. -/
def build_inc_matrix (g : Graph) : List (List Int) :=
  (List.range g.edges.length).foldl (inc_step g)
    (List.replicate g.vertices (List.replicate g.edges.length 0))

/-- `Graph::get_inc_matrix()`: rebuild only if the stored cache is the empty
vector, otherwise return the cache unchanged; returns the matrix together
with the updated object state. -/
def get_inc_matrix (g : Graph) : List (List Int) × Graph :=
  if g.inc_matrix.isEmpty then
    let m := build_inc_matrix g
    (m, { g with inc_matrix := m })
  else (g.inc_matrix, g)

/-- Class invariant established by the constructor: the adjacency matrix is
`vertices × vertices` and there is one adjacency list per vertex. -/
def WFGraph (g : Graph) : Prop :=
  g.adj_matrix.length = g.vertices ∧
  (∀ row ∈ g.adj_matrix, row.length = g.vertices) ∧
  g.adj_list.length = g.vertices

instance (g : Graph) : Decidable (WFGraph g) := by
  unfold WFGraph; infer_instance

/-! ### Basic lemmas about list reads and writes -/

theorem getD_set_self {α : Type} (l : List α) (i : Nat) (x d : α)
    (h : i < l.length) : (l.set i x).getD i d = x := by
  simp [List.getD_eq_getElem?_getD, List.getElem?_set_self h]

theorem getD_set_ne {α : Type} (l : List α) (i j : Nat) (x d : α)
    (h : i ≠ j) : (l.set i x).getD j d = l.getD j d := by
  simp [List.getD_eq_getElem?_getD, List.getElem?_set_ne h]

theorem getD_mem_of_lt {α : Type} (l : List α) (i : Nat) (d : α)
    (h : i < l.length) : l.getD i d ∈ l := by
  rw [List.getD_eq_getElem?_getD, List.getElem?_eq_getElem h]
  exact List.getElem_mem h

theorem length_setv (m : List (List Int)) (i j : Nat) (w : Int) :
    (setv m i j w).length = m.length :=
  List.length_set m ..

theorem rowlen_setv (m : List (List Int)) (i j : Nat) (w : Int) (x : Nat) :
    ((setv m i j w).getD x []).length = ((m.getD x []).length) := by
  unfold setv
  by_cases hx : i = x
  · subst hx
    by_cases h : i < m.length
    · rw [getD_set_self _ _ _ _ h, List.length_set]
    · rw [List.set_eq_of_length_le (Nat.le_of_not_lt h)]
  · rw [getD_set_ne _ _ _ _ _ hx]

theorem getv_setv_self (m : List (List Int)) (i j : Nat) (w : Int)
    (hi : i < m.length) (hj : j < (m.getD i []).length) :
    getv (setv m i j w) i j = w := by
  unfold getv setv
  rw [getD_set_self _ _ _ _ hi, getD_set_self _ _ _ _ hj]

theorem getv_setv_ne (m : List (List Int)) (i j : Nat) (w : Int) (x y : Nat)
    (h : x ≠ i ∨ y ≠ j) : getv (setv m i j w) x y = getv m x y := by
  unfold getv setv
  by_cases hx : i = x
  · subst hx
    have hy : y ≠ j := h.resolve_left (fun hc => hc rfl)
    by_cases hlen : i < m.length
    · rw [getD_set_self _ _ _ _ hlen, getD_set_ne _ _ _ _ _ (fun hc => hy hc.symm)]
    · rw [List.set_eq_of_length_le (Nat.le_of_not_lt hlen)]
  · rw [getD_set_ne _ _ _ _ _ hx]

/-! ### `add_edge`: state characterization -/

theorem add_edge_vertices (g : Graph) (u v : Nat) (w : Int) :
    (add_edge g u v w).vertices = g.vertices := rfl

theorem add_edge_directed (g : Graph) (u v : Nat) (w : Int) :
    (add_edge g u v w).directed = g.directed := rfl

theorem add_edge_edges (g : Graph) (u v : Nat) (w : Int) :
    (add_edge g u v w).edges = g.edges ++ [(u, v)] := rfl

theorem add_edge_inc_matrix (g : Graph) (u v : Nat) (w : Int) :
    (add_edge g u v w).inc_matrix = g.inc_matrix := rfl

theorem add_edge_adj_list (g : Graph) (u v : Nat) (w : Int) :
    (add_edge g u v w).adj_list =
      g.adj_list.set u ((g.adj_list.getD u []) ++ [(v, w)]) := rfl

theorem row_length (g : Graph) (hwf : WFGraph g) (u : Nat) (hu : u < g.vertices) :
    (g.adj_matrix.getD u []).length = g.vertices :=
  hwf.2.1 _ (getD_mem_of_lt _ _ _ (by rw [hwf.1]; exact hu))

theorem add_edge_matrix_eq (g : Graph) (u v : Nat) (w : Int) :
    (add_edge g u v w).adj_matrix =
      if g.directed then setv (setv g.adj_matrix u v w) u v w
      else setv (setv (setv g.adj_matrix u v w) v u w) u v w := rfl

theorem add_edge_mlen (g : Graph) (u v : Nat) (w : Int) :
    ((add_edge g u v w).adj_matrix).length = g.adj_matrix.length := by
  rw [add_edge_matrix_eq]
  split <;> simp only [length_setv]

theorem add_edge_rowlen (g : Graph) (u v : Nat) (w : Int) (x : Nat) :
    (((add_edge g u v w).adj_matrix).getD x []).length =
      (g.adj_matrix.getD x []).length := by
  rw [add_edge_matrix_eq]
  split <;> simp only [rowlen_setv]

/-- Full characterization of the adjacency matrix after `add_edge`. -/
theorem add_edge_getv (g : Graph) (u v : Nat) (w : Int) (x y : Nat)
    (hwf : WFGraph g) (hu : u < g.vertices) (hv : v < g.vertices) :
    getv (add_edge g u v w).adj_matrix x y =
      if x = u ∧ y = v then w
      else if g.directed = false ∧ x = v ∧ y = u then w
      else getv g.adj_matrix x y := by
  have hm : g.adj_matrix.length = g.vertices := hwf.1
  have hlu : u < g.adj_matrix.length := by rw [hm]; exact hu
  have hlv : v < g.adj_matrix.length := by rw [hm]; exact hv
  have hru : (g.adj_matrix.getD u []).length = g.vertices := row_length g hwf u hu
  have hrv : (g.adj_matrix.getD v []).length = g.vertices := row_length g hwf v hv
  have hl1 : (setv g.adj_matrix u v w).length = g.adj_matrix.length :=
    length_setv ..
  have hr1u : ((setv g.adj_matrix u v w).getD u []).length = g.vertices := by
    rw [rowlen_setv]; exact hru
  have hr1v : ((setv g.adj_matrix u v w).getD v []).length = g.vertices := by
    rw [rowlen_setv]; exact hrv
  rw [add_edge_matrix_eq]
  by_cases hd : g.directed = true
  · rw [if_pos hd]
    by_cases hxy : x = u ∧ y = v
    · obtain ⟨hx, hy⟩ := hxy
      subst hx; subst hy
      rw [if_pos ⟨rfl, rfl⟩]
      exact getv_setv_self _ _ _ _ (by rw [hl1]; exact hlu) (by rw [hr1u]; exact hv)
    · have hne : x ≠ u ∨ y ≠ v := by tauto
      rw [if_neg hxy, if_neg (fun hc => by rw [hd] at hc; exact nomatch hc.1),
        getv_setv_ne _ _ _ _ _ _ hne, getv_setv_ne _ _ _ _ _ _ hne]
  · rw [if_neg hd]
    have hdf : g.directed = false := by
      cases hgd : g.directed
      · rfl
      · exact absurd hgd hd
    by_cases hxy : x = u ∧ y = v
    · obtain ⟨hx, hy⟩ := hxy
      subst hx; subst hy
      rw [if_pos ⟨rfl, rfl⟩]
      refine getv_setv_self _ _ _ _ ?_ ?_
      · rw [length_setv, hl1]; exact hlu
      · rw [rowlen_setv, rowlen_setv, hru]; exact hv
    · have hne : x ≠ u ∨ y ≠ v := by tauto
      rw [if_neg hxy, getv_setv_ne _ _ _ _ _ _ hne]
      by_cases hvu : x = v ∧ y = u
      · obtain ⟨hx, hy⟩ := hvu
        subst hx; subst hy
        rw [if_pos ⟨hdf, rfl, rfl⟩]
        exact getv_setv_self _ _ _ _ (by rw [hl1]; exact hlv) (by rw [hr1v]; exact hu)
      · have hne2 : x ≠ v ∨ y ≠ u := by tauto
        rw [if_neg (fun hc => hvu ⟨hc.2.1, hc.2.2⟩),
          getv_setv_ne _ _ _ _ _ _ hne2, getv_setv_ne _ _ _ _ _ _ hne]

theorem add_edge_WF (g : Graph) (u v : Nat) (w : Int) (hwf : WFGraph g) :
    WFGraph (add_edge g u v w) := by
  obtain ⟨h1, h2, h3⟩ := hwf
  refine ⟨?_, ?_, ?_⟩
  · rw [add_edge_mlen]; exact h1
  · intro row hrow
    obtain ⟨i, hi, hrowEq⟩ := List.getElem_of_mem hrow
    have hi' : i < g.adj_matrix.length := by
      rw [← add_edge_mlen g u v w]; exact hi
    have hlen : (((add_edge g u v w).adj_matrix).getD i []).length = g.vertices := by
      rw [add_edge_rowlen]
      exact h2 _ (getD_mem_of_lt _ _ _ hi')
    rw [List.getD_eq_getElem?_getD, List.getElem?_eq_getElem hi] at hlen
    simpa [hrowEq] using hlen
  · show (g.adj_list.set u _).length = g.vertices
    rw [List.length_set]; exact h3

/-- C5 (amended): adding an edge `(u, v, w)` with valid indices sets
`adjacencyMatrix[u][v] = w`, appends `(v, w)` to `adjacencyList[u]` and
`(u, v)` to `edges`; if undirected it also sets `adjacencyMatrix[v][u] = w`;
if directed and `u ≠ v`, `adjacencyMatrix[v][u]` is unchanged (for a directed
self-loop `u = v` the entry `[v][u]` is the written cell itself). -/
theorem add_edge_spec (g : Graph) (u v : Nat) (w : Int)
    (hwf : WFGraph g) (hu : u < g.vertices) (hv : v < g.vertices) :
    getv (add_edge g u v w).adj_matrix u v = w ∧
    (add_edge g u v w).adj_list.getD u [] = g.adj_list.getD u [] ++ [(v, w)] ∧
    (add_edge g u v w).edges = g.edges ++ [(u, v)] ∧
    (g.directed = false → getv (add_edge g u v w).adj_matrix v u = w) ∧
    (g.directed = true → u ≠ v →
      getv (add_edge g u v w).adj_matrix v u = getv g.adj_matrix v u) := by
  refine ⟨?_, ?_, rfl, ?_, ?_⟩
  · rw [add_edge_getv g u v w u v hwf hu hv, if_pos ⟨rfl, rfl⟩]
  · rw [add_edge_adj_list, getD_set_self]
    rw [hwf.2.2]; exact hu
  · intro hd
    rw [add_edge_getv g u v w v u hwf hu hv]
    by_cases huv : u = v
    · subst huv; rw [if_pos ⟨rfl, rfl⟩]
    · rw [if_neg (by intro hc; exact huv hc.1.symm), if_pos ⟨hd, rfl, rfl⟩]
  · intro hd huv
    rw [add_edge_getv g u v w v u hwf hu hv,
      if_neg (by intro hc; exact huv hc.1.symm),
      if_neg (by intro hc; rw [hd] at hc; exact nomatch hc.1)]

/-- C5 counterexample: for a directed graph with one vertex, the self-loop
`add_edge(0, 0, 5)` does change `adjacencyMatrix[v][u] = adjacencyMatrix[0][0]`
(from `0` to `5`), contradicting the claim's unconditional "unchanged". -/
theorem add_edge_spec_cex :
    getv (add_edge (mkGraph 1 true) 0 0 5).adj_matrix 0 0 ≠
      getv (mkGraph 1 true).adj_matrix 0 0 := by decide

/-- Witness for `add_edge_spec` at a concrete input. -/
theorem add_edge_spec_witness :
    WFGraph (mkGraph 2 false) ∧ (0 : Nat) < (mkGraph 2 false).vertices ∧
    (1 : Nat) < (mkGraph 2 false).vertices ∧
    (getv (add_edge (mkGraph 2 false) 0 1 7).adj_matrix 0 1 = 7 ∧
     (add_edge (mkGraph 2 false) 0 1 7).adj_list.getD 0 [] =
       (mkGraph 2 false).adj_list.getD 0 [] ++ [(1, 7)] ∧
     (add_edge (mkGraph 2 false) 0 1 7).edges = (mkGraph 2 false).edges ++ [(0, 1)] ∧
     ((mkGraph 2 false).directed = false →
       getv (add_edge (mkGraph 2 false) 0 1 7).adj_matrix 1 0 = 7) ∧
     ((mkGraph 2 false).directed = true → (0 : Nat) ≠ 1 →
       getv (add_edge (mkGraph 2 false) 0 1 7).adj_matrix 1 0 =
         getv (mkGraph 2 false).adj_matrix 1 0)) :=
  ⟨by decide, by decide, by decide,
    add_edge_spec (mkGraph 2 false) 0 1 7 (by decide) (by decide) (by decide)⟩

/-! ### Incidence matrix: characterization of the built columns -/

/-- Final value of entry `(x, i)` of the built incidence matrix: iteration `i`
writes row `u` and then row `v` of column `i` (so for a directed self-loop the
second, signed write wins). -/
def incColVal (g : Graph) (x i : Nat) : Int :=
  let u := (g.edges.getD i (0, 0)).1
  let v := (g.edges.getD i (0, 0)).2
  let w : Int := (getv g.adj_matrix u v).natAbs
  if x = v then (if g.directed then -w else w)
  else if x = u then w
  else 0

theorem inc_step_len (g : Graph) (acc : List (List Int)) (i : Nat) :
    (inc_step g acc i).length = acc.length := by
  unfold inc_step
  simp only [length_setv]

theorem inc_step_rowlen (g : Graph) (acc : List (List Int)) (i x : Nat) :
    ((inc_step g acc i).getD x []).length = (acc.getD x []).length := by
  unfold inc_step
  simp only [rowlen_setv]

theorem inc_fold_len (g : Graph) (is : List Nat) (acc : List (List Int)) :
    (is.foldl (inc_step g) acc).length = acc.length := by
  induction is generalizing acc with
  | nil => rfl
  | cons i is ih => rw [List.foldl_cons, ih, inc_step_len]

theorem inc_fold_rowlen (g : Graph) (is : List Nat) (acc : List (List Int)) (x : Nat) :
    ((is.foldl (inc_step g) acc).getD x []).length = (acc.getD x []).length := by
  induction is generalizing acc with
  | nil => rfl
  | cons i is ih => rw [List.foldl_cons, ih, inc_step_rowlen]

theorem inc_step_getv (g : Graph) (acc : List (List Int)) (i x j : Nat)
    (hlen : acc.length = g.vertices)
    (hrows : ∀ y, y < g.vertices → (acc.getD y []).length = g.edges.length)
    (hi : i < g.edges.length)
    (hu : (g.edges.getD i (0, 0)).1 < g.vertices)
    (hv : (g.edges.getD i (0, 0)).2 < g.vertices) :
    getv (inc_step g acc i) x j =
      if j = i ∧ (x = (g.edges.getD i (0, 0)).2 ∨ x = (g.edges.getD i (0, 0)).1)
      then incColVal g x i
      else getv acc x j := by
  unfold inc_step incColVal
  rcases hp : g.edges.getD i (0, 0) with ⟨u, v⟩
  rw [hp] at hu hv
  dsimp only at hu hv ⊢
  have hlv : v < acc.length := by rw [hlen]; exact hv
  have hlu : u < acc.length := by rw [hlen]; exact hu
  have hrv : i < ((setv acc u i ((getv g.adj_matrix u v).natAbs : Int)).getD v []).length := by
    rw [rowlen_setv, hrows v hv]; exact hi
  have hru : i < (acc.getD u []).length := by rw [hrows u hu]; exact hi
  by_cases hxv : x = v ∧ j = i
  · obtain ⟨hx, hj⟩ := hxv
    subst hx; subst hj
    have hc1 : j = j ∧ (x = x ∨ x = u) := ⟨rfl, Or.inl rfl⟩
    rw [if_pos hc1, if_pos rfl,
      getv_setv_self _ _ _ _ (by rw [length_setv]; exact hlv) hrv]
  · have hne1 : x ≠ v ∨ j ≠ i := by tauto
    rw [getv_setv_ne _ _ _ _ _ _ hne1]
    by_cases hxu : x = u ∧ j = i
    · obtain ⟨hx, hj⟩ := hxu
      subst hx; subst hj
      have hxnev : x ≠ v := fun hc => hxv ⟨hc, rfl⟩
      have hc2 : j = j ∧ (x = v ∨ x = x) := ⟨rfl, Or.inr rfl⟩
      rw [if_pos hc2, if_neg hxnev, if_pos rfl,
        getv_setv_self _ _ _ _ hlu hru]
    · have hne2 : x ≠ u ∨ j ≠ i := by tauto
      rw [getv_setv_ne _ _ _ _ _ _ hne2]
      have hc3 : ¬(j = i ∧ (x = v ∨ x = u)) := by
        rintro ⟨hj, hx | hx⟩
        · exact hxv ⟨hx, hj⟩
        · exact hxu ⟨hx, hj⟩
      rw [if_neg hc3]

theorem inc_fold_getv (g : Graph)
    (hE : ∀ e ∈ g.edges, e.1 < g.vertices ∧ e.2 < g.vertices) :
    ∀ (is : List Nat) (acc : List (List Int)),
    (∀ i ∈ is, i < g.edges.length) →
    acc.length = g.vertices →
    (∀ y, y < g.vertices → (acc.getD y []).length = g.edges.length) →
    ∀ x j,
      getv (is.foldl (inc_step g) acc) x j =
        if j ∈ is ∧ (x = (g.edges.getD j (0, 0)).2 ∨ x = (g.edges.getD j (0, 0)).1)
        then incColVal g x j
        else getv acc x j := by
  intro is
  induction is with
  | nil =>
    intro acc _ _ _ x j
    rw [if_neg (by rintro ⟨h, -⟩; exact absurd h (List.not_mem_nil j))]
    rfl
  | cons i is ih =>
    intro acc his hlen hrows x j
    have hi : i < g.edges.length := his i (List.mem_cons_self i is)
    have hmem : g.edges.getD i (0, 0) ∈ g.edges := by
      apply getD_mem_of_lt
      exact hi
    have hu := (hE _ hmem).1
    have hv := (hE _ hmem).2
    rw [List.foldl_cons]
    rw [ih (inc_step g acc i) (fun a ha => his a (List.mem_cons_of_mem i ha))
      (by rw [inc_step_len]; exact hlen)
      (fun y hy => by rw [inc_step_rowlen]; exact hrows y hy) x j]
    by_cases h1 : j ∈ is ∧ (x = (g.edges.getD j (0, 0)).2 ∨ x = (g.edges.getD j (0, 0)).1)
    · rw [if_pos h1, if_pos ⟨List.mem_cons_of_mem i h1.1, h1.2⟩]
    · rw [if_neg h1]
      rw [inc_step_getv g acc i x j hlen hrows hi hu hv]
      by_cases h2 : j = i ∧ (x = (g.edges.getD i (0, 0)).2 ∨ x = (g.edges.getD i (0, 0)).1)
      · rw [if_pos h2]
        have hj : j = i := h2.1
        subst hj
        rw [if_pos ⟨List.mem_cons_self j is, h2.2⟩]
      · rw [if_neg h2]
        rw [if_neg (by rintro ⟨hmem2, hx⟩
                       rcases List.mem_cons.mp hmem2 with hj | hj
                       · exact h2 ⟨hj, hj ▸ hx⟩
                       · exact h1 ⟨hj, hx⟩)]

theorem getv_zero_init (a b x j : Nat) :
    getv (List.replicate a (List.replicate b (0 : Int))) x j = 0 := by
  unfold getv
  rcases Nat.lt_or_ge x a with hx | hx
  · have h1 : (List.replicate a (List.replicate b (0 : Int))).getD x [] =
        List.replicate b 0 := by
      rw [List.getD_eq_getElem?_getD, List.getElem?_replicate, if_pos hx]
      rfl
    rw [h1]
    rcases Nat.lt_or_ge j b with hj | hj
    · rw [List.getD_eq_getElem?_getD, List.getElem?_replicate, if_pos hj]
      rfl
    · rw [List.getD_eq_getElem?_getD, List.getElem?_replicate,
        if_neg (Nat.not_lt.mpr hj)]
      rfl
  · have h1 : (List.replicate a (List.replicate b (0 : Int))).getD x [] = [] := by
      rw [List.getD_eq_getElem?_getD, List.getElem?_replicate,
        if_neg (Nat.not_lt.mpr hx)]
      rfl
    rw [h1]
    rfl

theorem build_inc_matrix_len (g : Graph) :
    (build_inc_matrix g).length = g.vertices := by
  unfold build_inc_matrix
  rw [inc_fold_len, List.length_replicate]

theorem build_inc_matrix_rowlen (g : Graph) (y : Nat) (hy : y < g.vertices) :
    ((build_inc_matrix g).getD y []).length = g.edges.length := by
  unfold build_inc_matrix
  rw [inc_fold_rowlen, List.getD_eq_getElem?_getD, List.getElem?_replicate,
    if_pos hy]
  exact List.length_replicate ..

theorem build_inc_matrix_getv (g : Graph)
    (hE : ∀ e ∈ g.edges, e.1 < g.vertices ∧ e.2 < g.vertices)
    (x j : Nat) (hj : j < g.edges.length) :
    getv (build_inc_matrix g) x j = incColVal g x j := by
  unfold build_inc_matrix
  rw [inc_fold_getv g hE (List.range g.edges.length) _
    (fun a ha => List.mem_range.mp ha) (List.length_replicate ..)
    (fun y hy => by
      rw [List.getD_eq_getElem?_getD, List.getElem?_replicate, if_pos hy]
      exact List.length_replicate ..) x j]
  by_cases h : x = (g.edges.getD j (0, 0)).2 ∨ x = (g.edges.getD j (0, 0)).1
  · rw [if_pos ⟨List.mem_range.mpr hj, h⟩]
  · rw [if_neg (by rintro ⟨-, hx⟩; exact h hx), getv_zero_init]
    unfold incColVal
    push_neg at h
    rw [if_neg h.1, if_neg h.2]

theorem get_inc_matrix_of_empty (g : Graph) (hc : g.inc_matrix = []) :
    get_inc_matrix g =
      (build_inc_matrix g, { g with inc_matrix := build_inc_matrix g }) := by
  unfold get_inc_matrix
  rw [hc]
  rfl

theorem get_inc_matrix_of_nonempty (g : Graph) (hc : g.inc_matrix ≠ []) :
    get_inc_matrix g = (g.inc_matrix, g) := by
  unfold get_inc_matrix
  rw [if_neg (by simp only [List.isEmpty_iff]; exact hc)]

/-- The concrete graph of the spec scenario: 3 vertices, undirected edges
`(0,1,2)` and `(1,2,3)`. -/
def demo3 : Graph := add_edge (add_edge (mkGraph 3 false) 0 1 2) 1 2 3

/-- C3 (amended): on a graph whose recorded edges have valid endpoints and no
self-loops, the first `get_inc_matrix` call returns a `vertexCount × edgeCount`
matrix where column `i` (for the edge recorded as `(u, v)` with
`w = |adjacencyMatrix[u][v]|`) has entry `w` at row `u`, entry
`directed ? -w : w` at row `v`, and `0` at every other row (for a directed
self-loop the second write would overwrite row `u` with `-w`, hence the
no-self-loop hypothesis); concretely, on 3 vertices with undirected edges
`(0,1,2)`, `(1,2,3)` the result is `[[2,0],[2,3],[0,3]]`. -/
theorem get_inc_matrix_spec (g : Graph)
    (hcache : g.inc_matrix = [])
    (hE : ∀ e ∈ g.edges, e.1 < g.vertices ∧ e.2 < g.vertices ∧ e.1 ≠ e.2) :
    ((get_inc_matrix g).1.length = g.vertices ∧
      ∀ row ∈ (get_inc_matrix g).1, row.length = g.edges.length) ∧
    (∀ i, i < g.edges.length →
      getv (get_inc_matrix g).1 (g.edges.getD i (0, 0)).1 i =
        ((getv g.adj_matrix (g.edges.getD i (0, 0)).1
            (g.edges.getD i (0, 0)).2).natAbs : Int) ∧
      getv (get_inc_matrix g).1 (g.edges.getD i (0, 0)).2 i =
        (if g.directed
         then -((getv g.adj_matrix (g.edges.getD i (0, 0)).1
             (g.edges.getD i (0, 0)).2).natAbs : Int)
         else ((getv g.adj_matrix (g.edges.getD i (0, 0)).1
             (g.edges.getD i (0, 0)).2).natAbs : Int)) ∧
      ∀ x, x < g.vertices → x ≠ (g.edges.getD i (0, 0)).1 →
        x ≠ (g.edges.getD i (0, 0)).2 → getv (get_inc_matrix g).1 x i = 0) ∧
    (get_inc_matrix demo3).1 = [[2, 0], [2, 3], [0, 3]] := by
  have hfst : (get_inc_matrix g).1 = build_inc_matrix g := by
    rw [get_inc_matrix_of_empty g hcache]
  have hE' : ∀ e ∈ g.edges, e.1 < g.vertices ∧ e.2 < g.vertices :=
    fun e he => ⟨(hE e he).1, (hE e he).2.1⟩
  refine ⟨⟨?_, ?_⟩, ?_, ?_⟩
  · rw [hfst]; exact build_inc_matrix_len g
  · intro row hrow
    rw [hfst] at hrow
    obtain ⟨k, hk, hkeq⟩ := List.getElem_of_mem hrow
    have hk' : k < g.vertices := by
      rw [← build_inc_matrix_len g]; exact hk
    have hlen := build_inc_matrix_rowlen g k hk'
    rw [List.getD_eq_getElem?_getD, List.getElem?_eq_getElem hk] at hlen
    simpa [hkeq] using hlen
  · intro i hi
    have hmem : g.edges.getD i (0, 0) ∈ g.edges := getD_mem_of_lt _ _ _ hi
    obtain ⟨hu, hv, huv⟩ := hE _ hmem
    have hcv : ∀ x, getv (build_inc_matrix g) x i = incColVal g x i :=
      fun x => build_inc_matrix_getv g hE' x i hi
    simp only [incColVal] at hcv
    rcases hp : g.edges.getD i (0, 0) with ⟨u, v⟩
    rw [hp] at hu hv huv hcv
    dsimp only at hu hv huv hcv ⊢
    refine ⟨?_, ?_, ?_⟩
    · rw [hfst, hcv u, if_neg huv, if_pos rfl]
    · rw [hfst, hcv v, if_pos rfl]
    · intro x _ hxu hxv
      rw [hfst, hcv x, if_neg hxv, if_neg hxu]
  · decide

/-- C3 counterexample: a directed self-loop `add_edge(0, 0, 1)` produces
incidence entry `[u][i] = -1` (the signed second write overwrites the first),
not `w = |adjacencyMatrix[0][0]| = 1` as the claim's formula states. -/
theorem get_inc_matrix_spec_cex :
    ¬ (getv (get_inc_matrix (add_edge (mkGraph 1 true) 0 0 1)).1 0 0 =
        ((getv (add_edge (mkGraph 1 true) 0 0 1).adj_matrix 0 0).natAbs : Int)) := by
  decide

/-- Witness for `get_inc_matrix_spec` at the spec's concrete scenario. -/
theorem get_inc_matrix_spec_witness :
    (demo3.inc_matrix = [] ∧
      ∀ e ∈ demo3.edges, e.1 < demo3.vertices ∧ e.2 < demo3.vertices ∧ e.1 ≠ e.2) ∧
    (((get_inc_matrix demo3).1.length = demo3.vertices ∧
      ∀ row ∈ (get_inc_matrix demo3).1, row.length = demo3.edges.length) ∧
    (∀ i, i < demo3.edges.length →
      getv (get_inc_matrix demo3).1 (demo3.edges.getD i (0, 0)).1 i =
        ((getv demo3.adj_matrix (demo3.edges.getD i (0, 0)).1
            (demo3.edges.getD i (0, 0)).2).natAbs : Int) ∧
      getv (get_inc_matrix demo3).1 (demo3.edges.getD i (0, 0)).2 i =
        (if demo3.directed
         then -((getv demo3.adj_matrix (demo3.edges.getD i (0, 0)).1
             (demo3.edges.getD i (0, 0)).2).natAbs : Int)
         else ((getv demo3.adj_matrix (demo3.edges.getD i (0, 0)).1
             (demo3.edges.getD i (0, 0)).2).natAbs : Int)) ∧
      ∀ x, x < demo3.vertices → x ≠ (demo3.edges.getD i (0, 0)).1 →
        x ≠ (demo3.edges.getD i (0, 0)).2 → getv (get_inc_matrix demo3).1 x i = 0) ∧
    (get_inc_matrix demo3).1 = [[2, 0], [2, 3], [0, 3]]) :=
  ⟨⟨by decide, by decide⟩, get_inc_matrix_spec demo3 (by decide) (by decide)⟩

/-! ### C4: the stale cache -/

/-- One `add_edge` call per list entry, in order. -/
def add_edges (g : Graph) (ops : List (Nat × Nat × Int)) : Graph :=
  ops.foldl (fun h e => add_edge h e.1 e.2.1 e.2.2) g

theorem add_edges_inc_matrix (g : Graph) (ops : List (Nat × Nat × Int)) :
    (add_edges g ops).inc_matrix = g.inc_matrix := by
  induction ops generalizing g with
  | nil => rfl
  | cons e ops ih =>
    show (add_edges (add_edge g e.1 e.2.1 e.2.2) ops).inc_matrix = _
    rw [ih, add_edge_inc_matrix]

theorem add_edges_vertices (g : Graph) (ops : List (Nat × Nat × Int)) :
    (add_edges g ops).vertices = g.vertices := by
  induction ops generalizing g with
  | nil => rfl
  | cons e ops ih =>
    show (add_edges (add_edge g e.1 e.2.1 e.2.2) ops).vertices = _
    rw [ih, add_edge_vertices]

/-- C4: once `get_inc_matrix` has been called, every later call returns the
same matrix as the first call, even across arbitrary intervening `add_edge`
calls: the cache is rebuilt only when the stored representation is empty and
`add_edge` never invalidates it (if the first build is itself empty the graph
has no vertices, and a rebuild over the unchanged zero-row dimensions returns
the empty matrix again). -/
theorem get_inc_matrix_stable (g : Graph) (ops : List (Nat × Nat × Int)) :
    (get_inc_matrix (add_edges (get_inc_matrix g).2 ops)).1 =
      (get_inc_matrix g).1 := by
  by_cases hc : g.inc_matrix = []
  · rw [get_inc_matrix_of_empty g hc]
    dsimp only
    have h2inc : (add_edges { g with inc_matrix := build_inc_matrix g } ops).inc_matrix =
        build_inc_matrix g := by
      rw [add_edges_inc_matrix]
    by_cases hb : build_inc_matrix g = []
    · have hv0 : g.vertices = 0 := by
        have := build_inc_matrix_len g
        rw [hb] at this
        exact this.symm
      rw [get_inc_matrix_of_empty _ (by rw [h2inc, hb])]
      dsimp only
      have hlen0 : (build_inc_matrix
          (add_edges { g with inc_matrix := build_inc_matrix g } ops)).length = 0 := by
        rw [build_inc_matrix_len, add_edges_vertices]
        exact hv0
      rw [List.length_eq_zero.mp hlen0, hb]
    · rw [get_inc_matrix_of_nonempty _ (by rw [h2inc]; exact hb), h2inc]
  · rw [get_inc_matrix_of_nonempty g hc]
    dsimp only
    rw [get_inc_matrix_of_nonempty _ (by rw [add_edges_inc_matrix]; exact hc),
      add_edges_inc_matrix]

/-! ### C10: duplicate edges -/

/-- The incidence build reads only the vertex count, directedness, edge list
and the adjacency entries at the recorded edge endpoints. -/
theorem build_inc_matrix_congr (g1 g2 : Graph)
    (hv : g1.vertices = g2.vertices) (hd : g1.directed = g2.directed)
    (he : g1.edges = g2.edges)
    (ha : ∀ e ∈ g1.edges, getv g1.adj_matrix e.1 e.2 = getv g2.adj_matrix e.1 e.2) :
    build_inc_matrix g1 = build_inc_matrix g2 := by
  unfold build_inc_matrix
  rw [← hv, ← he]
  apply List.foldl_ext
  intro acc i hi
  have hi' : i < g1.edges.length := List.mem_range.mp hi
  have hmem : g1.edges.getD i (0, 0) ∈ g1.edges := getD_mem_of_lt _ _ _ hi'
  simp only [inc_step]
  rw [← he, ← hd, ← ha _ hmem]

/-- Adjacency matrix after adding the same pair twice with weights
`w1` then `w2`: the `w1` writes are completely overwritten. -/
theorem add_edge_twice_getv (g : Graph) (u v : Nat) (w1 w2 : Int) (x y : Nat)
    (hwf : WFGraph g) (hu : u < g.vertices) (hv : v < g.vertices) :
    getv (add_edge (add_edge g u v w1) u v w2).adj_matrix x y =
      if x = u ∧ y = v then w2
      else if g.directed = false ∧ x = v ∧ y = u then w2
      else getv g.adj_matrix x y := by
  have hwf1 := add_edge_WF g u v w1 hwf
  rw [add_edge_getv _ u v w2 x y hwf1 hu hv]
  simp only [add_edge_directed]
  by_cases h1 : x = u ∧ y = v
  · rw [if_pos h1, if_pos h1]
  · rw [if_neg h1, if_neg h1]
    by_cases h2 : g.directed = false ∧ x = v ∧ y = u
    · rw [if_pos h2, if_pos h2]
    · rw [if_neg h2, if_neg h2,
        add_edge_getv g u v w1 x y hwf hu hv, if_neg h1, if_neg h2]

/-- C10 (amended: the two duplicate columns of the incidence matrix carry the
absolute value `|w2|`, with the usual `directed` sign on row `v`, rather than
`w2` itself): after `add_edge(u,v,w1)` and `add_edge(u,v,w2)`,
`adjacencyMatrix[u][v] = w2`, `adjacencyList[u]` holds both `(v,w1)` and
`(v,w2)`, `edges` holds `(u,v)` twice, a first `get_inc_matrix` call made
afterwards produces two columns for the pair both carrying `|w2|`, and the
returned incidence matrix is independent of `w1`. -/
theorem add_edge_duplicate_spec (g : Graph) (u v : Nat) (w1 w2 : Int)
    (hwf : WFGraph g) (hu : u < g.vertices) (hv : v < g.vertices) (huv : u ≠ v)
    (hcache : g.inc_matrix = [])
    (hE : ∀ e ∈ g.edges, e.1 < g.vertices ∧ e.2 < g.vertices) :
    getv (add_edge (add_edge g u v w1) u v w2).adj_matrix u v = w2 ∧
    (add_edge (add_edge g u v w1) u v w2).adj_list.getD u [] =
      g.adj_list.getD u [] ++ [(v, w1), (v, w2)] ∧
    (add_edge (add_edge g u v w1) u v w2).edges = g.edges ++ [(u, v), (u, v)] ∧
    (getv (get_inc_matrix (add_edge (add_edge g u v w1) u v w2)).1 u
        g.edges.length = (w2.natAbs : Int) ∧
      getv (get_inc_matrix (add_edge (add_edge g u v w1) u v w2)).1 v
        g.edges.length =
        (if g.directed then -(w2.natAbs : Int) else (w2.natAbs : Int)) ∧
      getv (get_inc_matrix (add_edge (add_edge g u v w1) u v w2)).1 u
        (g.edges.length + 1) = (w2.natAbs : Int) ∧
      getv (get_inc_matrix (add_edge (add_edge g u v w1) u v w2)).1 v
        (g.edges.length + 1) =
        (if g.directed then -(w2.natAbs : Int) else (w2.natAbs : Int))) ∧
    ∀ w0 : Int,
      (get_inc_matrix (add_edge (add_edge g u v w0) u v w2)).1 =
        (get_inc_matrix (add_edge (add_edge g u v w1) u v w2)).1 := by
  have hmm : ∀ w0 : Int, (add_edge (add_edge g u v w0) u v w2).edges =
      g.edges ++ [(u, v), (u, v)] := by
    intro w0
    rw [add_edge_edges, add_edge_edges, List.append_assoc]
    rfl
  have hgd : ∀ w0 : Int, getv (add_edge (add_edge g u v w0) u v w2).adj_matrix u v = w2 := by
    intro w0
    rw [add_edge_twice_getv g u v w0 w2 u v hwf hu hv, if_pos ⟨rfl, rfl⟩]
  have hEdup : ∀ w0 : Int, ∀ e ∈ (add_edge (add_edge g u v w0) u v w2).edges,
      e.1 < (add_edge (add_edge g u v w0) u v w2).vertices ∧
      e.2 < (add_edge (add_edge g u v w0) u v w2).vertices := by
    intro w0 e he
    rw [hmm w0] at he
    rcases List.mem_append.mp he with h | h
    · exact hE e h
    · rcases List.mem_cons.mp h with h | h
      · rw [h]; exact ⟨hu, hv⟩
      · rcases List.mem_cons.mp h with h | h
        · rw [h]; exact ⟨hu, hv⟩
        · exact absurd h (List.not_mem_nil e)
  have hinc : ∀ w0 : Int,
      (get_inc_matrix (add_edge (add_edge g u v w0) u v w2)).1 =
        build_inc_matrix (add_edge (add_edge g u v w0) u v w2) := by
    intro w0
    rw [get_inc_matrix_of_empty _ (by rw [add_edge_inc_matrix, add_edge_inc_matrix]; exact hcache)]
  have hgetD1 : ∀ w0 : Int,
      (add_edge (add_edge g u v w0) u v w2).edges.getD g.edges.length (0, 0) = (u, v) := by
    intro w0
    rw [hmm w0, List.getD_eq_getElem?_getD,
      List.getElem?_append_right (Nat.le_refl _), Nat.sub_self]
    rfl
  have hgetD2 : ∀ w0 : Int,
      (add_edge (add_edge g u v w0) u v w2).edges.getD (g.edges.length + 1) (0, 0) = (u, v) := by
    intro w0
    rw [hmm w0, List.getD_eq_getElem?_getD,
      List.getElem?_append_right (Nat.le_succ_of_le (Nat.le_refl _)),
      Nat.succ_sub (Nat.le_refl _), Nat.sub_self]
    rfl
  have hlen : ∀ w0 : Int, (add_edge (add_edge g u v w0) u v w2).edges.length =
      g.edges.length + 2 := by
    intro w0
    rw [hmm w0, List.length_append]
    rfl
  have hcol : ∀ (i : Nat), i = g.edges.length ∨ i = g.edges.length + 1 →
      (getv (get_inc_matrix (add_edge (add_edge g u v w1) u v w2)).1 u i
          = (w2.natAbs : Int) ∧
        getv (get_inc_matrix (add_edge (add_edge g u v w1) u v w2)).1 v i
          = (if g.directed then -(w2.natAbs : Int) else (w2.natAbs : Int))) := by
    intro i hi
    have hilt : i < (add_edge (add_edge g u v w1) u v w2).edges.length := by
      rw [hlen w1]
      rcases hi with h | h <;> omega
    have hgd' : (add_edge (add_edge g u v w1) u v w2).edges.getD i (0, 0) = (u, v) := by
      rcases hi with h | h
      · rw [h]; exact hgetD1 w1
      · rw [h]; exact hgetD2 w1
    have hbu := build_inc_matrix_getv _ (hEdup w1) u i hilt
    have hbv := build_inc_matrix_getv _ (hEdup w1) v i hilt
    simp only [incColVal, hgd'] at hbu hbv
    rw [hgd w1] at hbu hbv
    rw [if_neg huv, if_pos (by trivial)] at hbu
    rw [if_pos (by trivial)] at hbv
    constructor
    · rw [hinc w1]; exact hbu
    · rw [hinc w1]
      rw [hbv]
      rfl
  refine ⟨hgd w1, ?_, hmm w1, ⟨(hcol _ (Or.inl rfl)).1, (hcol _ (Or.inl rfl)).2,
    (hcol _ (Or.inr rfl)).1, (hcol _ (Or.inr rfl)).2⟩, ?_⟩
  · have hwf1 := add_edge_WF g u v w1 hwf
    rw [add_edge_adj_list, getD_set_self _ _ _ _ (by
        have : (add_edge g u v w1).adj_list.length = g.vertices := hwf1.2.2
        rw [this]; exact hu)]
    rw [add_edge_adj_list, getD_set_self _ _ _ _ (by rw [hwf.2.2]; exact hu),
      List.append_assoc]
    rfl
  · intro w0
    rw [hinc w0, hinc w1]
    apply build_inc_matrix_congr
    · rfl
    · rfl
    · rw [hmm w0, hmm w1]
    · intro e _
      rw [add_edge_twice_getv g u v w0 w2 e.1 e.2 hwf hu hv,
        add_edge_twice_getv g u v w1 w2 e.1 e.2 hwf hu hv]

/-- C10 counterexample: with `w1 = 5`, `w2 = -3` on an undirected 2-vertex
graph, the duplicate incidence column carries `3 = |w2|`, not `w2 = -3`. -/
theorem add_edge_duplicate_cex :
    getv (get_inc_matrix (add_edge (add_edge (mkGraph 2 false) 0 1 5) 0 1 (-3))).1
        0 0 ≠ (-3 : Int) := by
  decide

/-- Witness for `add_edge_duplicate_spec` at a concrete input. -/
theorem add_edge_duplicate_witness :
    (WFGraph (mkGraph 2 false) ∧ (0 : Nat) ≠ 1 ∧ (mkGraph 2 false).inc_matrix = []) ∧
    (getv (add_edge (add_edge (mkGraph 2 false) 0 1 5) 0 1 (-3)).adj_matrix 0 1 = -3 ∧
    (add_edge (add_edge (mkGraph 2 false) 0 1 5) 0 1 (-3)).adj_list.getD 0 [] =
      (mkGraph 2 false).adj_list.getD 0 [] ++ [(1, 5), (1, -3)] ∧
    (add_edge (add_edge (mkGraph 2 false) 0 1 5) 0 1 (-3)).edges =
      (mkGraph 2 false).edges ++ [(0, 1), (0, 1)] ∧
    (getv (get_inc_matrix (add_edge (add_edge (mkGraph 2 false) 0 1 5) 0 1 (-3))).1 0
        (mkGraph 2 false).edges.length = (((-3 : Int).natAbs : Int)) ∧
      getv (get_inc_matrix (add_edge (add_edge (mkGraph 2 false) 0 1 5) 0 1 (-3))).1 1
        (mkGraph 2 false).edges.length =
        (if (mkGraph 2 false).directed then -(((-3 : Int).natAbs : Int))
         else (((-3 : Int).natAbs : Int))) ∧
      getv (get_inc_matrix (add_edge (add_edge (mkGraph 2 false) 0 1 5) 0 1 (-3))).1 0
        ((mkGraph 2 false).edges.length + 1) = (((-3 : Int).natAbs : Int)) ∧
      getv (get_inc_matrix (add_edge (add_edge (mkGraph 2 false) 0 1 5) 0 1 (-3))).1 1
        ((mkGraph 2 false).edges.length + 1) =
        (if (mkGraph 2 false).directed then -(((-3 : Int).natAbs : Int))
         else (((-3 : Int).natAbs : Int)))) ∧
    ∀ w0 : Int,
      (get_inc_matrix (add_edge (add_edge (mkGraph 2 false) 0 1 w0) 0 1 (-3))).1 =
        (get_inc_matrix (add_edge (add_edge (mkGraph 2 false) 0 1 5) 0 1 (-3))).1) :=
  ⟨⟨by decide, by decide, by decide⟩,
    add_edge_duplicate_spec (mkGraph 2 false) 0 1 5 (-3) (by decide) (by decide)
      (by decide) (by decide) (by decide) (by decide)⟩

/-! ### The random graph generator

`rand()` is abstracted as a stream `rnd : Nat → Nat` giving the value of the
i-th `rand()` call; each state records the index of the next call.  The
unbounded `while (num_edges > 0)` rejection loop is given explicit fuel; the
code has no iteration bound, and theorem `generate_graph_infeasible_stuck`
below shows the fuel can never suffice on infeasible constraints. -/

/-- The local state of `generate_graph`'s rejection loop. -/
structure GenState where
  g : Graph
  num_edges : Nat
  edges_per_vertex : List Nat
  incoming_edges_per_vertex : List Nat
  outgoing_edges_per_vertex : List Nat
  idx : Nat
deriving Repr, DecidableEq

/-- One iteration of the rejection loop (lines 246-278): draw `u` and `v`,
apply the four rejection tests (`u == v`; degree at the structural cap
`num_vertices - 1`; directed in/out caps; duplicate `adj_matrix[u][v] != 0`),
and on acceptance draw a weight in `[1, 100]`, add the edge and update the
counters.  Every `continue` path has consumed exactly the two `rand()` calls
for `u` and `v`. -/
def gen_step (num_vertices : Nat) (directed : Bool)
    (max_incoming_edges max_outgoing_edges : Nat) (rnd : Nat → Nat)
    (st : GenState) : GenState :=
  let u := rnd st.idx % num_vertices
  let v := rnd (st.idx + 1) % num_vertices
  let skip : GenState := { st with idx := st.idx + 2 }
  if u = v then skip
  else if st.edges_per_vertex.getD u 0 ≥ num_vertices - 1 ∨
      st.edges_per_vertex.getD v 0 ≥ num_vertices - 1 then skip
  else if directed ∧ (st.incoming_edges_per_vertex.getD v 0 ≥ max_incoming_edges ∨
      st.outgoing_edges_per_vertex.getD u 0 ≥ max_outgoing_edges) then skip
  else if getv (get_adj_matrix st.g) u v ≠ 0 then skip
  else
    let weight : Int := (rnd (st.idx + 2) % 100 + 1 : Nat)
    { g := add_edge st.g u v weight
      num_edges := st.num_edges - 1
      edges_per_vertex :=
        (st.edges_per_vertex.set u (st.edges_per_vertex.getD u 0 + 1)).set v
          ((st.edges_per_vertex.set u (st.edges_per_vertex.getD u 0 + 1)).getD v 0 + 1)
      incoming_edges_per_vertex :=
        if directed then st.incoming_edges_per_vertex.set v
          (st.incoming_edges_per_vertex.getD v 0 + 1)
        else st.incoming_edges_per_vertex
      outgoing_edges_per_vertex :=
        if directed then st.outgoing_edges_per_vertex.set u
          (st.outgoing_edges_per_vertex.getD u 0 + 1)
        else st.outgoing_edges_per_vertex
      idx := st.idx + 3 }

/-- The `while (num_edges > 0)` loop, with fuel standing in for the absent
iteration bound. -/
def gen_loop (num_vertices : Nat) (directed : Bool)
    (max_incoming_edges max_outgoing_edges : Nat) (rnd : Nat → Nat) :
    Nat → GenState → GenState
  | 0, st => st
  | fuel + 1, st =>
    if st.num_edges = 0 then st
    else gen_loop num_vertices directed max_incoming_edges max_outgoing_edges rnd
      fuel (gen_step num_vertices directed max_incoming_edges max_outgoing_edges rnd st)

/-- `generate_graph` (line 234): note line 237 constructs `Graph g(num_vertices);`,
so the `directed` parameter of the constructor defaults to `false`, and the
`max_edges_per_vertex` parameter is never read (the degree rejection uses the
hard cap `num_vertices - 1`).  The whole final loop state is returned so that
the remaining `num_edges` counter can be observed. -/
def generate_graph (min_vertices max_vertices min_edges max_edges
    max_edges_per_vertex : Nat) (directed : Bool)
    (max_incoming_edges max_outgoing_edges : Nat)
    (rnd : Nat → Nat) (fuel : Nat) : GenState :=
  let num_vertices := rnd 0 % (max_vertices - min_vertices + 1) + min_vertices
  let g := mkGraph num_vertices false
  let num_edges := rnd 1 % (max_edges - min_edges + 1) + min_edges
  gen_loop num_vertices directed max_incoming_edges max_outgoing_edges rnd fuel
    { g := g
      num_edges := num_edges
      edges_per_vertex := List.replicate num_vertices 0
      incoming_edges_per_vertex := List.replicate num_vertices 0
      outgoing_edges_per_vertex := List.replicate num_vertices 0
      idx := 2 }

theorem gen_step_directed_field (num_vertices : Nat) (directed : Bool)
    (mi mo : Nat) (rnd : Nat → Nat) (st : GenState) :
    (gen_step num_vertices directed mi mo rnd st).g.directed = st.g.directed := by
  unfold gen_step
  dsimp only
  repeat' split
  all_goals rfl

theorem gen_loop_directed_field (num_vertices : Nat) (directed : Bool)
    (mi mo : Nat) (rnd : Nat → Nat) (fuel : Nat) (st : GenState) :
    (gen_loop num_vertices directed mi mo rnd fuel st).g.directed =
      st.g.directed := by
  induction fuel generalizing st with
  | zero => rfl
  | succ fuel ih =>
    show (if st.num_edges = 0 then st else _).g.directed = _
    split
    · rfl
    · rw [ih, gen_step_directed_field]

/-- C1 is false on the code (code bug): `generate_graph` constructs
`Graph g(num_vertices);` without passing its `directed` argument, so the
returned graph is always undirected — in particular for `directed = true`
the duplicate-edge check `adj_matrix[u][v] != 0` blocks both directions,
since `add_edge` on the (undirected) graph writes both matrix entries. -/
theorem generate_graph_ignores_directed (min_vertices max_vertices min_edges
    max_edges max_edges_per_vertex : Nat) (directed : Bool)
    (max_incoming_edges max_outgoing_edges : Nat)
    (rnd : Nat → Nat) (fuel : Nat) :
    (generate_graph min_vertices max_vertices min_edges max_edges
      max_edges_per_vertex directed max_incoming_edges max_outgoing_edges
      rnd fuel).g.directed = false := by
  unfold generate_graph
  rw [gen_loop_directed_field]
  rfl

/-- C9: the result of `generate_graph` does not depend on
`max_edges_per_vertex` at all — the parameter is never read. -/
theorem generate_graph_ignores_max_edges_per_vertex (min_vertices max_vertices
    min_edges max_edges m1 m2 : Nat) (directed : Bool)
    (max_incoming_edges max_outgoing_edges : Nat)
    (rnd : Nat → Nat) (fuel : Nat) :
    generate_graph min_vertices max_vertices min_edges max_edges m1 directed
        max_incoming_edges max_outgoing_edges rnd fuel =
      generate_graph min_vertices max_vertices min_edges max_edges m2 directed
        max_incoming_edges max_outgoing_edges rnd fuel := rfl

/-- On two vertices with both degree counters at the structural cap
`num_vertices - 1 = 1`, every iteration of the rejection loop is a `continue`:
the state (except the random index) never changes. -/
theorem gen_step_stuck (directed : Bool) (mi mo : Nat) (rnd : Nat → Nat)
    (st : GenState) (hepv : st.edges_per_vertex = [1, 1]) :
    gen_step 2 directed mi mo rnd st = { st with idx := st.idx + 2 } := by
  unfold gen_step
  have hu2 : rnd st.idx % 2 < 2 := Nat.mod_lt _ (by omega)
  have hv2 : rnd (st.idx + 1) % 2 < 2 := Nat.mod_lt _ (by omega)
  by_cases huv : rnd st.idx % 2 = rnd (st.idx + 1) % 2
  · rw [if_pos huv]
  · rw [if_neg huv, if_pos]
    left
    rw [hepv]
    interval_cases h : rnd st.idx % 2
    · simp
    · simp

theorem gen_loop_stuck (directed : Bool) (mi mo : Nat) (rnd : Nat → Nat)
    (fuel : Nat) (st : GenState) (hepv : st.edges_per_vertex = [1, 1])
    (hne : st.num_edges = 1) :
    (gen_loop 2 directed mi mo rnd fuel st).num_edges = 1 := by
  induction fuel generalizing st with
  | zero => exact hne
  | succ fuel ih =>
    show (if st.num_edges = 0 then st else _).num_edges = 1
    rw [if_neg (by omega)]
    rw [gen_step_stuck directed mi mo rnd st hepv]
    exact ih _ hepv hne

/-- C8 is false on the code (code bug): with `minVertices = maxVertices = 2`
and `minEdges = maxEdges = 2` (two edges requested, but a 2-vertex graph can
hold only one), the rejection loop never terminates — whatever fuel it is
given, the remaining edge counter never reaches `0`, and no
`InfeasibleConstraints` failure exists anywhere in the code. -/
theorem generate_graph_infeasible_stuck (max_edges_per_vertex : Nat) (fuel : Nat) :
    1 ≤ (generate_graph 2 2 2 2 max_edges_per_vertex false 1 1
          (fun i => i) fuel).num_edges := by
  match fuel with
  | 0 => exact (by decide : (1 : Nat) ≤ 2)
  | fuel + 1 =>
    have h : generate_graph 2 2 2 2 max_edges_per_vertex false 1 1
          (fun i => i) (fuel + 1) =
        gen_loop 2 false 1 1 (fun i => i) fuel
          { g := add_edge (mkGraph 2 false) 0 1 5, num_edges := 1,
            edges_per_vertex := [1, 1],
            incoming_edges_per_vertex := List.replicate 2 0,
            outgoing_edges_per_vertex := List.replicate 2 0, idx := 5 } := rfl
    rw [h, gen_loop_stuck false 1 1 (fun i => i) fuel _ rfl rfl]

/-! ### C7: out-of-range accesses are undefined behavior, not `OutOfRange`

The C++ indexes `std::vector` with `operator[]`, which performs no bounds
check: out of range the program has undefined behavior instead of raising any
condition.  The wrappers below make the out-of-range accesses explicit: they
return `none` exactly when the C++ would perform an out-of-bounds
`operator[]` access (for `add_edge`, the write `adj_matrix_[u][v]`; for the
searches, the write `visited[source]` and the read `visited[target]`, both on
a vector of size `vertexCount`). -/

/-- `add_edge` with the first out-of-bounds `vector` access modelled:
`adj_matrix_[u][v] = weight` is UB unless `u` and `v` are in range. -/
def add_edge_checked (g : Graph) (u v : Nat) (weight : Int) : Option Graph :=
  if u < g.adj_matrix.length ∧ v < (g.adj_matrix.getD u []).length then
    some (add_edge g u v weight)
  else none

/-! ### BFS -/

/-- Local state of `bfs_shortest_path`: the `visited` and `parent` vectors and
the FIFO queue (front at the head of the list). -/
structure BfsState where
  visited : List Nat
  parent : List Int
  queue : List Nat
deriving Repr, DecidableEq

/-- The inner `for (v = 0; v < num_vertices; v++)` scan of popped vertex `u`
(lines 304-310): each fresh neighbor with a nonzero matrix entry is marked
visited, given parent `u` and pushed to the back of the queue. -/
def bfs_inner (m : List (List Int)) (n u : Nat) (st : BfsState) : BfsState :=
  (List.range n).foldl
    (fun st v =>
      if getv m u v ≠ 0 ∧ st.visited.getD v 0 = 0 then
        { visited := st.visited.set v 1
          parent := st.parent.set v (u : Int)
          queue := st.queue ++ [v] }
      else st) st

/-- The `while (!q.empty())` loop, with fuel standing in for the absent bound;
`bfs_loop_inv` below proves the fuel passed by `bfs_shortest_path` always
suffices (the final queue is empty, i.e. the loop really terminated). -/
def bfs_loop (m : List (List Int)) (n : Nat) : Nat → BfsState → BfsState
  | 0, st => st
  | fuel + 1, st =>
    match st.queue with
    | [] => st
    | u :: rest => bfs_loop m n fuel (bfs_inner m n u ⟨st.visited, st.parent, rest⟩)

/-- The parent-chain reconstruction loop (lines 314-319 and 365-370): follow
`parent` from `target` until `-1`, appending each vertex; the caller reverses.
Fuel `n + 1` is proved sufficient (`pathLoop_spec`). -/
def pathLoop (parent : List Int) : Nat → Int → List Nat → List Nat
  | 0, _, path => path
  | fuel + 1, u, path =>
    if u = -1 then path
    else pathLoop parent fuel (parent.getD u.toNat (-1)) (path ++ [u.toNat])

/-- `bfs_shortest_path(Graph g, int source, int target)` (line 293). -/
def bfs_shortest_path (g : Graph) (source target : Nat) : List Nat :=
  let m := get_adj_matrix g
  let n := m.length
  let st := bfs_loop m n (n * n + n + 1)
    { visited := (List.replicate n 0).set source 1
      parent := List.replicate n (-1)
      queue := [source] }
  if st.visited.getD target 0 ≠ 0 then
    (pathLoop st.parent (n + 1) (target : Int) []).reverse
  else []

/-! ### Paths, reachability and shortest distance (specification side) -/

/-- A nonzero adjacency-matrix entry `m[u][v]`. -/
def Adj (m : List (List Int)) (u v : Nat) : Prop := getv m u v ≠ 0

instance (m : List (List Int)) (u v : Nat) : Decidable (Adj m u v) := by
  unfold Adj
  infer_instance

/-- `p` is a path from `s` to `t` over matrix `m`: it starts with `s`, ends
with `t` (hence is nonempty) and every consecutive pair is joined by a
nonzero matrix entry. -/
def isPathFrom (m : List (List Int)) (s t : Nat) (p : List Nat) : Prop :=
  p.head? = some s ∧ p.getLast? = some t ∧ List.Chain' (Adj m) p

def Reachable (m : List (List Int)) (s t : Nat) : Prop :=
  ∃ p, isPathFrom m s t p

/-- `k` is the minimum edge count over all paths from `s` to `t` (a path with
`k` edges has `k + 1` vertices). -/
def IsDist (m : List (List Int)) (s t k : Nat) : Prop :=
  (∃ p, isPathFrom m s t p ∧ p.length = k + 1) ∧
  ∀ q, isPathFrom m s t q → k + 1 ≤ q.length

theorem Adj_lt (m : List (List Int)) (u v : Nat) (h : Adj m u v) :
    u < m.length := by
  by_contra hc
  apply h
  unfold getv
  have h1 : m.getD u [] = [] := by
    rw [List.getD_eq_getElem?_getD, List.getElem?_eq_none (by omega)]
    rfl
  rw [h1]
  rfl

theorem isPathFrom_single (m : List (List Int)) (s : Nat) :
    isPathFrom m s s [s] :=
  ⟨rfl, rfl, List.chain'_singleton s⟩

theorem isPathFrom_ne_nil (m : List (List Int)) (s t : Nat) (p : List Nat)
    (h : isPathFrom m s t p) : p ≠ [] := by
  intro hc
  rw [hc] at h
  exact nomatch h.1

theorem isPathFrom_length_pos (m : List (List Int)) (s t : Nat) (p : List Nat)
    (h : isPathFrom m s t p) : 1 ≤ p.length := by
  cases p with
  | nil => exact absurd rfl (isPathFrom_ne_nil m s t [] h)
  | cons a p => exact Nat.succ_le_succ (Nat.zero_le _)

theorem isPathFrom_append_edge (m : List (List Int)) (s u v : Nat)
    (p : List Nat) (hp : isPathFrom m s u p) (ha : Adj m u v) :
    isPathFrom m s v (p ++ [v]) := by
  obtain ⟨hh, hl, hc⟩ := hp
  refine ⟨?_, ?_, ?_⟩
  · cases p with
    | nil => exact nomatch hh
    | cons a p => exact hh
  · exact List.getLast?_concat _
  · rw [List.chain'_append]
    refine ⟨hc, List.chain'_singleton v, ?_⟩
    intro x hx y hy
    rw [hl] at hx
    cases hx
    cases hy
    exact ha

theorem IsDist_self (m : List (List Int)) (s : Nat) : IsDist m s s 0 :=
  ⟨⟨[s], isPathFrom_single m s, rfl⟩,
    fun q hq => isPathFrom_length_pos m s s q hq⟩

theorem IsDist_unique (m : List (List Int)) (s t k1 k2 : Nat)
    (h1 : IsDist m s t k1) (h2 : IsDist m s t k2) : k1 = k2 := by
  obtain ⟨⟨p1, hp1, hl1⟩, hmin1⟩ := h1
  obtain ⟨⟨p2, hp2, hl2⟩, hmin2⟩ := h2
  have a1 := hmin1 p2 hp2
  have a2 := hmin2 p1 hp1
  omega

theorem exists_isDist (m : List (List Int)) (s t : Nat)
    (h : Reachable m s t) : ∃ k, IsDist m s t k := by
  classical
  obtain ⟨p, hp⟩ := h
  have hex : ∃ L, ∃ q, isPathFrom m s t q ∧ q.length = L := ⟨p.length, p, hp, rfl⟩
  obtain ⟨q, hq, hqL⟩ := Nat.find_spec hex
  have hpos : 1 ≤ Nat.find hex := by
    have := isPathFrom_length_pos m s t q hq
    omega
  refine ⟨Nat.find hex - 1, ⟨q, hq, by omega⟩, ?_⟩
  intro r hr
  have := Nat.find_min' hex ⟨r, hr, rfl⟩
  omega

/-- A list that starts in `P` and ends outside `P` contains an adjacent
crossing pair. -/
theorem exists_crossing (P : Nat → Prop) :
    ∀ (q : List Nat) (a t : Nat), q.head? = some a → q.getLast? = some t →
    P a → ¬ P t →
    ∃ l1 x y l2, q = l1 ++ x :: y :: l2 ∧ P x ∧ ¬ P y := by
  classical
  intro q
  induction q with
  | nil =>
    intro a t hh _ _ _
    exact nomatch hh
  | cons c q ih =>
    intro a t hh hl hPa hPt
    have hca : c = a := by simpa using hh
    subst hca
    cases q with
    | nil =>
      have hct : c = t := by simpa using hl
      subst hct
      exact absurd hPa hPt
    | cons d q2 =>
      by_cases hPd : P d
      · obtain ⟨l1, x, y, l2, heq, hPx, hPy⟩ := ih d t rfl hl hPd hPt
        exact ⟨c :: l1, x, y, l2, by rw [heq]; rfl, hPx, hPy⟩
      · exact ⟨[], c, d, q2, rfl, hPa, hPd⟩

/-- Splitting a path at an adjacent pair yields a path to the first element
of the pair, plus the crossing edge. -/
theorem isPathFrom_split (m : List (List Int)) (s t : Nat) (l1 l2 : List Nat)
    (x y : Nat) (hq : isPathFrom m s t (l1 ++ x :: y :: l2)) :
    isPathFrom m s x (l1 ++ [x]) ∧ Adj m x y := by
  obtain ⟨hh, hl, hc⟩ := hq
  obtain ⟨hc1, hc2, hlink⟩ := List.chain'_append.mp hc
  have hxy : Adj m x y := (List.chain'_cons.mp hc2).1
  refine ⟨⟨?_, List.getLast?_concat _, ?_⟩, hxy⟩
  · cases l1 with
    | nil => simpa using hh
    | cons e l1 => simpa using hh
  · rw [List.chain'_append]
    refine ⟨hc1, List.chain'_singleton x, ?_⟩
    intro p hp z hz
    have hzx : x = z := by simpa using hz
    subst hzx
    exact hlink p hp x rfl

/-- The CLRS discovery step: when BFS pops `u` at depth `du` and meets an
unvisited neighbor `v`, the shortest distance to `v` is exactly `du + 1`.
`X` collects the not-yet-fully-processed visited vertices (`u` itself and the
queue): every visited vertex outside `X` has all its out-neighbors visited,
and every member of `X` has depth at least `du`. -/
theorem discover_isDist (m : List (List Int)) (n s : Nat) (dep : Nat → Nat)
    (vis : List Nat) (X : List Nat) (u v du : Nat)
    (hmn : m.length = n)
    (hviss : vis.getD s 0 ≠ 0)
    (hvisd : ∀ w, w < n → vis.getD w 0 ≠ 0 → IsDist m s w (dep w))
    (hclosed : ∀ w, w < n → vis.getD w 0 ≠ 0 → w ∉ X →
      ∀ x, x < n → Adj m w x → vis.getD x 0 ≠ 0)
    (hXdep : ∀ w ∈ X, du ≤ dep w)
    (hu : u < n) (hvisu : vis.getD u 0 ≠ 0) (hdu : dep u = du)
    (hadj : Adj m u v) (hv : v < n) (hunvis : vis.getD v 0 = 0) :
    IsDist m s v (du + 1) := by
  obtain ⟨⟨p, hp, hplen⟩, -⟩ := hvisd u hu hvisu
  constructor
  · refine ⟨p ++ [v], isPathFrom_append_edge m s u v p hp hadj, ?_⟩
    rw [List.length_append, hplen, hdu]
    rfl
  · intro q hq
    by_contra hlt
    push_neg at hlt
    have hqh : q.head? = some s := hq.1
    have hql : q.getLast? = some v := hq.2.1
    obtain ⟨l1, x, y, l2, heq, hPx, hPy⟩ :=
      exists_crossing (fun z => vis.getD z 0 ≠ 0) q s v hqh hql hviss
        (fun hc => hc hunvis)
    have hq' := hq
    rw [heq] at hq'
    obtain ⟨hpre, hxy⟩ := isPathFrom_split m s v l1 l2 x y hq'
    have hxn : x < n := by rw [← hmn]; exact Adj_lt m x y hxy
    have hle : dep x + 1 ≤ l1.length + 1 := by
      have h2 := (hvisd x hxn hPx).2 (l1 ++ [x]) hpre
      rwa [List.length_append] at h2
    have hyn : y < n := by
      cases l2 with
      | nil =>
        have hyv : y = v := by
          rw [heq, List.getLast?_append_of_ne_nil _ (by simp)] at hql
          simpa using hql
        rw [hyv]; exact hv
      | cons c l2 =>
        obtain ⟨-, hc2, -⟩ := List.chain'_append.mp hq'.2.2
        have hadj2 : Adj m y c := (List.chain'_cons.mp (List.chain'_cons.mp hc2).2).1
        rw [← hmn]; exact Adj_lt m y c hadj2
    have hqlen : q.length = l1.length + l2.length + 2 := by
      rw [heq, List.length_append]
      simp only [List.length_cons]
      omega
    by_cases hxX : x ∈ X
    · have h1 := hXdep x hxX
      omega
    · exact hPy (hclosed x hxn hPx hxX y hyn hxy)

/-- Invariant of the inner neighbor scan of popped vertex `u` (at depth `du`):
`L` is the list of neighbor indices still to scan, `dep` assigns BFS depths to
visited vertices.  The queue splits into a depth-`du` prefix and a
depth-`du + 1` suffix, every fully processed vertex (visited, not in the
queue, and not `u`) has all out-neighbors visited, and the already-scanned
neighbors of `u` are visited. -/
structure ScanInv (m : List (List Int)) (n s u du : Nat) (L : List Nat)
    (dep : Nat → Nat) (st : BfsState) : Prop where
  hmn : m.length = n
  hvlen : st.visited.length = n
  hplen : st.parent.length = n
  hs : s < n
  hviss : st.visited.getD s 0 ≠ 0
  hu : u < n
  hvisu : st.visited.getD u 0 ≠ 0
  hdu : dep u = du
  hque : ∀ x ∈ st.queue, x < n ∧ st.visited.getD x 0 ≠ 0
  hqdep : ∀ x ∈ st.queue, du ≤ dep x
  hlev : ∃ q1 q2, st.queue = q1 ++ q2 ∧ (∀ x ∈ q1, dep x = du) ∧
    ∀ x ∈ q2, dep x = du + 1
  hnodup : st.queue.Nodup
  hunotq : u ∉ st.queue
  hvis : ∀ w, w < n → st.visited.getD w 0 ≠ 0 →
    IsDist m s w (dep w) ∧
    (w = s ∧ st.parent.getD w (-1) = -1 ∧ dep w = 0 ∨
     ∃ z, z < n ∧ st.visited.getD z 0 ≠ 0 ∧ st.parent.getD w (-1) = (z : Int) ∧
       Adj m z w ∧ dep w = dep z + 1)
  hdone : ∀ w, w < n → st.visited.getD w 0 ≠ 0 → w ∉ st.queue → w ≠ u →
    ∀ x, x < n → Adj m w x → st.visited.getD x 0 ≠ 0
  hscan : ∀ x, x < n → x ∉ L → Adj m u x → st.visited.getD x 0 ≠ 0

theorem scan_step (m : List (List Int)) (n s u du : Nat) (L : List Nat)
    (dep : Nat → Nat) (st : BfsState) (v : Nat) (hvn : v < n)
    (hinv : ScanInv m n s u du (v :: L) dep st) :
    ∃ dep', ScanInv m n s u du L dep'
      (if getv m u v ≠ 0 ∧ st.visited.getD v 0 = 0 then
        { visited := st.visited.set v 1
          parent := st.parent.set v (u : Int)
          queue := st.queue ++ [v] }
      else st) := by
  by_cases hcond : getv m u v ≠ 0 ∧ st.visited.getD v 0 = 0
  · rw [if_pos hcond]
    obtain ⟨hadj, hunvis⟩ := hcond
    have hvvl : v < st.visited.length := by rw [hinv.hvlen]; exact hvn
    have hvpl : v < st.parent.length := by rw [hinv.hplen]; exact hvn
    -- any visited vertex differs from v
    have hnev : ∀ w, st.visited.getD w 0 ≠ 0 → w ≠ v := by
      intro w hw hc
      rw [hc, hunvis] at hw
      exact hw rfl
    -- visitedness is monotone under the write
    have hmono : ∀ x, st.visited.getD x 0 ≠ 0 → (st.visited.set v 1).getD x 0 ≠ 0 := by
      intro x hx
      rw [getD_set_ne _ _ _ _ _ (fun hc => hnev x hx hc.symm)]
      exact hx
    have hvisv : (st.visited.set v 1).getD v 0 ≠ 0 := by
      rw [getD_set_self _ _ _ _ hvvl]
      exact one_ne_zero
    have hdist : IsDist m s v (du + 1) := by
      refine discover_isDist m n s dep st.visited (u :: st.queue) u v du hinv.hmn
        hinv.hviss (fun w hw hvw => (hinv.hvis w hw hvw).1) ?_ ?_ hinv.hu
        hinv.hvisu hinv.hdu hadj hvn hunvis
      · intro w hw hvw hwX x hx hax
        exact hinv.hdone w hw hvw (fun hc => hwX (List.mem_cons_of_mem u hc))
          (fun hc => hwX (hc ▸ List.mem_cons_self u st.queue)) x hx hax
      · intro w hw
        rcases List.mem_cons.mp hw with h | h
        · rw [h, hinv.hdu]
        · exact hinv.hqdep w h
    refine ⟨Function.update dep v (du + 1), ?_⟩
    refine ⟨hinv.hmn, ?_, ?_, hinv.hs, ?_, hinv.hu, ?_, ?_, ?_, ?_, ?_, ?_, ?_,
      ?_, ?_, ?_⟩
    · show (st.visited.set v 1).length = n
      rw [List.length_set]; exact hinv.hvlen
    · show (st.parent.set v (u : Int)).length = n
      rw [List.length_set]; exact hinv.hplen
    · exact hmono s hinv.hviss
    · exact hmono u hinv.hvisu
    · rw [Function.update_noteq (hnev u hinv.hvisu) _ _, hinv.hdu]
    · intro x hx
      rcases List.mem_append.mp hx with h | h
      · obtain ⟨h1, h2⟩ := hinv.hque x h
        exact ⟨h1, hmono x h2⟩
      · rcases List.mem_cons.mp h with h | h
        · rw [h]; exact ⟨hvn, hvisv⟩
        · exact absurd h (List.not_mem_nil x)
    · intro x hx
      rcases List.mem_append.mp hx with h | h
      · rw [Function.update_noteq (hnev x (hinv.hque x h).2) _ _]
        exact hinv.hqdep x h
      · rcases List.mem_cons.mp h with h | h
        · rw [h, Function.update_same]
          omega
        · exact absurd h (List.not_mem_nil x)
    · obtain ⟨q1, q2, heq, h1, h2⟩ := hinv.hlev
      refine ⟨q1, q2 ++ [v], by rw [heq, List.append_assoc], ?_, ?_⟩
      · intro x hx
        have hxq : x ∈ st.queue := by rw [heq]; exact List.mem_append_left _ hx
        rw [Function.update_noteq (hnev x (hinv.hque x hxq).2) _ _]
        exact h1 x hx
      · intro x hx
        rcases List.mem_append.mp hx with h | h
        · have hxq : x ∈ st.queue := by rw [heq]; exact List.mem_append_right _ h
          rw [Function.update_noteq (hnev x (hinv.hque x hxq).2) _ _]
          exact h2 x h
        · rcases List.mem_cons.mp h with h | h
          · rw [h, Function.update_same]
          · exact absurd h (List.not_mem_nil x)
    · rw [List.nodup_append]
      refine ⟨hinv.hnodup, List.nodup_singleton v, ?_⟩
      intro x hx hx2
      rcases List.mem_cons.mp hx2 with h | h
      · exact hnev x (hinv.hque x hx).2 h
      · exact absurd h (List.not_mem_nil x)
    · intro hc
      rcases List.mem_append.mp hc with h | h
      · exact hinv.hunotq h
      · rcases List.mem_cons.mp h with h | h
        · exact hnev u hinv.hvisu h
        · exact absurd h (List.not_mem_nil u)
    · intro w hw hvw
      by_cases hwv : w = v
      · subst hwv
        constructor
        · rw [Function.update_same]
          exact hdist
        · refine Or.inr ⟨u, hinv.hu, hmono u hinv.hvisu, ?_, hadj, ?_⟩
          · rw [getD_set_self _ _ _ _ hvpl]
          · rw [Function.update_same,
              Function.update_noteq (hnev u hinv.hvisu) _ _, hinv.hdu]
      · have hvw' : st.visited.getD w 0 ≠ 0 := by
          rw [getD_set_ne _ _ _ _ _ (fun hc => hwv hc.symm)] at hvw
          exact hvw
        obtain ⟨hd, hbr⟩ := hinv.hvis w hw hvw'
        constructor
        · rw [Function.update_noteq hwv _ _]
          exact hd
        · rcases hbr with ⟨hws, hpw, hdw⟩ | ⟨z, hz, hvz, hpw, haz, hdw⟩
          · refine Or.inl ⟨hws, ?_, ?_⟩
            · rw [getD_set_ne _ _ _ _ _ (fun hc => hwv hc.symm)]
              exact hpw
            · rw [Function.update_noteq hwv _ _]
              exact hdw
          · refine Or.inr ⟨z, hz, hmono z hvz, ?_, haz, ?_⟩
            · rw [getD_set_ne _ _ _ _ _ (fun hc => hwv hc.symm)]
              exact hpw
            · rw [Function.update_noteq hwv _ _,
                Function.update_noteq (hnev z hvz) _ _]
              exact hdw
    · intro w hw hvw hwq hwu x hx hax
      have hwv : w ≠ v := by
        intro hc
        exact hwq (by rw [hc]; exact List.mem_append_right _ (List.mem_cons_self v []))
      have hvw' : st.visited.getD w 0 ≠ 0 := by
        rw [getD_set_ne _ _ _ _ _ (fun hc => hwv hc.symm)] at hvw
        exact hvw
      have hwq' : w ∉ st.queue := fun hc => hwq (List.mem_append_left _ hc)
      exact hmono x (hinv.hdone w hw hvw' hwq' hwu x hx hax)
    · intro x hx hxL hax
      by_cases hxv : x = v
      · rw [hxv]
        exact hvisv
      · have : x ∉ v :: L := by
          intro hc
          rcases List.mem_cons.mp hc with h | h
          · exact hxv h
          · exact hxL h
        exact hmono x (hinv.hscan x hx this hax)
  · rw [if_neg hcond]
    refine ⟨dep, ?_⟩
    refine ⟨hinv.hmn, hinv.hvlen, hinv.hplen, hinv.hs, hinv.hviss, hinv.hu,
      hinv.hvisu, hinv.hdu, hinv.hque, hinv.hqdep, hinv.hlev, hinv.hnodup,
      hinv.hunotq, hinv.hvis, hinv.hdone, ?_⟩
    intro x hx hxL hax
    by_cases hxv : x = v
    · subst hxv
      by_cases hvis : st.visited.getD x 0 = 0
      · exact absurd ⟨hax, hvis⟩ hcond
      · exact hvis
    · have : x ∉ v :: L := by
        intro hc
        rcases List.mem_cons.mp hc with h | h
        · exact hxv h
        · exact hxL h
      exact hinv.hscan x hx this hax

theorem scan_fold (m : List (List Int)) (n s u du : Nat) :
    ∀ (L : List Nat) (dep : Nat → Nat) (st : BfsState),
    (∀ v ∈ L, v < n) → ScanInv m n s u du L dep st →
    ∃ dep', ScanInv m n s u du [] dep'
      (L.foldl (fun st v =>
        if getv m u v ≠ 0 ∧ st.visited.getD v 0 = 0 then
          { visited := st.visited.set v 1
            parent := st.parent.set v (u : Int)
            queue := st.queue ++ [v] }
        else st) st) := by
  intro L
  induction L with
  | nil =>
    intro dep st _ hinv
    exact ⟨dep, hinv⟩
  | cons v L ih =>
    intro dep st hL hinv
    rw [List.foldl_cons]
    obtain ⟨dep', hinv'⟩ :=
      scan_step m n s u du L dep st v (hL v (List.mem_cons_self v L)) hinv
    exact ih dep' _ (fun x hx => hL x (List.mem_cons_of_mem _ hx)) hinv'

/-- The main BFS loop invariant. -/
structure BfsInv (m : List (List Int)) (n s : Nat) (dep : Nat → Nat)
    (st : BfsState) : Prop where
  hmn : m.length = n
  hvlen : st.visited.length = n
  hplen : st.parent.length = n
  hs : s < n
  hviss : st.visited.getD s 0 ≠ 0
  hque : ∀ x ∈ st.queue, x < n ∧ st.visited.getD x 0 ≠ 0
  hlev : ∃ k q1 q2, st.queue = q1 ++ q2 ∧ (∀ x ∈ q1, dep x = k) ∧
    ∀ x ∈ q2, dep x = k + 1
  hnodup : st.queue.Nodup
  hvis : ∀ w, w < n → st.visited.getD w 0 ≠ 0 →
    IsDist m s w (dep w) ∧
    (w = s ∧ st.parent.getD w (-1) = -1 ∧ dep w = 0 ∨
     ∃ z, z < n ∧ st.visited.getD z 0 ≠ 0 ∧ st.parent.getD w (-1) = (z : Int) ∧
       Adj m z w ∧ dep w = dep z + 1)
  hdone : ∀ w, w < n → st.visited.getD w 0 ≠ 0 → w ∉ st.queue →
    ∀ x, x < n → Adj m w x → st.visited.getD x 0 ≠ 0

/-- Popping the front of the queue and scanning its neighbors preserves the
BFS invariant. -/
theorem bfs_pop (m : List (List Int)) (n s : Nat) (dep : Nat → Nat)
    (st : BfsState) (u : Nat) (rest : List Nat)
    (hinv : BfsInv m n s dep st) (hq : st.queue = u :: rest) :
    ∃ dep', BfsInv m n s dep'
      (bfs_inner m n u ⟨st.visited, st.parent, rest⟩) := by
  have huq : u ∈ st.queue := by rw [hq]; exact List.mem_cons_self u rest
  obtain ⟨hun, hvisu⟩ := hinv.hque u huq
  have hnodup' : rest.Nodup ∧ u ∉ rest := by
    have := hinv.hnodup
    rw [hq] at this
    exact ⟨this.of_cons, (List.nodup_cons.mp this).1⟩
  -- the rest of the queue sits at depth `dep u` or `dep u + 1`
  have hsplit : (∀ x ∈ rest, dep u ≤ dep x) ∧
      ∃ q1 q2, rest = q1 ++ q2 ∧ (∀ x ∈ q1, dep x = dep u) ∧
        ∀ x ∈ q2, dep x = dep u + 1 := by
    obtain ⟨k, q1, q2, heq, h1, h2⟩ := hinv.hlev
    rw [hq] at heq
    cases q1 with
    | nil =>
      rw [List.nil_append] at heq
      have hdu : dep u = k + 1 :=
        h2 u (by rw [← heq]; exact List.mem_cons_self u rest)
      have hrest : ∀ x ∈ rest, dep x = dep u := by
        intro x hx
        rw [hdu]
        exact h2 x (by rw [← heq]; exact List.mem_cons_of_mem u hx)
      exact ⟨fun x hx => (hrest x hx).ge, rest, [], (List.append_nil rest).symm,
        hrest, fun x hx => absurd hx (List.not_mem_nil x)⟩
    | cons w q1 =>
      rw [List.cons_append] at heq
      injection heq with huw hrest
      have hdu : dep u = k := by
        rw [huw]
        exact h1 w (List.mem_cons_self w q1)
      refine ⟨?_, q1, q2, hrest, ?_, ?_⟩
      · intro x hx
        rw [hrest] at hx
        rcases List.mem_append.mp hx with h | h
        · rw [hdu, h1 x (List.mem_cons_of_mem w h)]
        · rw [hdu, h2 x h]
          omega
      · intro x hx
        rw [hdu]
        exact h1 x (List.mem_cons_of_mem w hx)
      · intro x hx
        rw [hdu]
        exact h2 x hx
  have hscan0 : ScanInv m n s u (dep u) (List.range n) dep
      ⟨st.visited, st.parent, rest⟩ := by
    refine ⟨hinv.hmn, hinv.hvlen, hinv.hplen, hinv.hs, hinv.hviss, hun, hvisu,
      rfl, ?_, ?_, ?_, hnodup'.1, hnodup'.2, ?_, ?_, ?_⟩
    · intro x hx
      exact hinv.hque x (by rw [hq]; exact List.mem_cons_of_mem u hx)
    · exact fun x hx => hsplit.1 x hx
    · exact hsplit.2
    · exact hinv.hvis
    · intro w hw hvw hwrest hwu x hx hax
      refine hinv.hdone w hw hvw ?_ x hx hax
      rw [hq]
      intro hc
      rcases List.mem_cons.mp hc with h | h
      · exact hwu h
      · exact hwrest h
    · intro x hx hxr
      exact absurd (List.mem_range.mpr hx) hxr
  obtain ⟨dep', hfin⟩ := scan_fold m n s u (dep u) (List.range n) dep _
    (fun v hv => List.mem_range.mp hv) hscan0
  refine ⟨dep', ?_⟩
  have hfold : bfs_inner m n u ⟨st.visited, st.parent, rest⟩ =
      (List.range n).foldl (fun st v =>
        if getv m u v ≠ 0 ∧ st.visited.getD v 0 = 0 then
          { visited := st.visited.set v 1
            parent := st.parent.set v (u : Int)
            queue := st.queue ++ [v] }
        else st) ⟨st.visited, st.parent, rest⟩ := rfl
  rw [hfold]
  refine ⟨hfin.hmn, hfin.hvlen, hfin.hplen, hfin.hs, hfin.hviss, hfin.hque,
    ?_, hfin.hnodup, hfin.hvis, ?_⟩
  · obtain ⟨q1, q2, heq, h1, h2⟩ := hfin.hlev
    exact ⟨dep u, q1, q2, heq, h1, h2⟩
  · intro w hw hvw hwq x hx hax
    by_cases hwu : w = u
    · subst hwu
      exact hfin.hscan x hx (List.not_mem_nil x) hax
    · exact hfin.hdone w hw hvw hwq hwu x hx hax

/-- Number of in-range unvisited vertices: the termination measure pays `n`
for each fresh visit and `1` for each queue entry. -/
def unvisCount (n : Nat) (vis : List Nat) : Nat :=
  ((Finset.range n).filter (fun v => vis.getD v 0 = 0)).card

def bfsMeasure (n : Nat) (st : BfsState) : Nat :=
  n * unvisCount n st.visited + st.queue.length

theorem unvisCount_set (n : Nat) (vis : List Nat) (v : Nat) (hv : v < n)
    (hvl : v < vis.length) (h0 : vis.getD v 0 = 0) :
    unvisCount n (vis.set v 1) + 1 = unvisCount n vis := by
  unfold unvisCount
  have hset : (Finset.range n).filter (fun x => (vis.set v 1).getD x 0 = 0) =
      ((Finset.range n).filter (fun x => vis.getD x 0 = 0)).erase v := by
    ext x
    simp only [Finset.mem_erase, Finset.mem_filter, Finset.mem_range]
    constructor
    · rintro ⟨hx, hx0⟩
      have hxv : x ≠ v := by
        intro hc
        subst hc
        rw [getD_set_self _ _ _ _ hvl] at hx0
        exact one_ne_zero hx0
      rw [getD_set_ne _ _ _ _ _ (fun hc => hxv hc.symm)] at hx0
      exact ⟨hxv, hx, hx0⟩
    · rintro ⟨hxv, hx, hx0⟩
      refine ⟨hx, ?_⟩
      rw [getD_set_ne _ _ _ _ _ (fun hc => hxv hc.symm)]
      exact hx0
  have hmem : v ∈ (Finset.range n).filter (fun x => vis.getD x 0 = 0) := by
    simp only [Finset.mem_filter, Finset.mem_range]
    exact ⟨hv, h0⟩
  rw [hset, Finset.card_erase_of_mem hmem]
  have hpos : 0 < ((Finset.range n).filter (fun x => vis.getD x 0 = 0)).card :=
    Finset.card_pos.mpr ⟨v, hmem⟩
  omega

theorem scan_measure (m : List (List Int)) (n u : Nat) :
    ∀ (L : List Nat) (st : BfsState), (∀ v ∈ L, v < n) →
    st.visited.length = n →
    ((L.foldl (fun st v =>
        if getv m u v ≠ 0 ∧ st.visited.getD v 0 = 0 then
          { visited := st.visited.set v 1
            parent := st.parent.set v (u : Int)
            queue := st.queue ++ [v] }
        else st) st).visited.length = n ∧
      bfsMeasure n (L.foldl (fun st v =>
        if getv m u v ≠ 0 ∧ st.visited.getD v 0 = 0 then
          { visited := st.visited.set v 1
            parent := st.parent.set v (u : Int)
            queue := st.queue ++ [v] }
        else st) st) ≤ bfsMeasure n st) := by
  intro L
  induction L with
  | nil =>
    intro st _ hlen
    exact ⟨hlen, Nat.le_refl _⟩
  | cons v L ih =>
    intro st hL hlen
    rw [List.foldl_cons]
    have hvn : v < n := hL v (List.mem_cons_self v L)
    by_cases hcond : getv m u v ≠ 0 ∧ st.visited.getD v 0 = 0
    · rw [if_pos hcond]
      have hvl : v < st.visited.length := by rw [hlen]; exact hvn
      have hlen' : (st.visited.set v 1).length = n := by
        rw [List.length_set]; exact hlen
      obtain ⟨hl2, hm2⟩ := ih
        { visited := st.visited.set v 1
          parent := st.parent.set v (u : Int)
          queue := st.queue ++ [v] }
        (fun x hx => hL x (List.mem_cons_of_mem v hx)) hlen'
      refine ⟨hl2, le_trans hm2 ?_⟩
      show n * unvisCount n (st.visited.set v 1) + (st.queue ++ [v]).length ≤
        n * unvisCount n st.visited + st.queue.length
      have hcnt := unvisCount_set n st.visited v hvn hvl hcond.2
      have hmul : n * unvisCount n st.visited =
          n * unvisCount n (st.visited.set v 1) + n := by
        rw [← hcnt]
        ring
      have hql : (st.queue ++ [v]).length = st.queue.length + 1 := by
        rw [List.length_append]
        rfl
      omega
    · rw [if_neg hcond]
      exact ih st (fun x hx => hL x (List.mem_cons_of_mem v hx)) hlen

theorem bfs_loop_inv (m : List (List Int)) (n s : Nat) :
    ∀ (fuel : Nat) (st : BfsState) (dep : Nat → Nat),
    BfsInv m n s dep st → bfsMeasure n st < fuel →
    ∃ dep', BfsInv m n s dep' (bfs_loop m n fuel st) ∧
      (bfs_loop m n fuel st).queue = [] := by
  intro fuel
  induction fuel with
  | zero =>
    intro st dep _ hm
    omega
  | succ fuel ih =>
    intro st dep hinv hm
    obtain ⟨vis, par, que⟩ := st
    cases que with
    | nil => exact ⟨dep, hinv, rfl⟩
    | cons u rest =>
      obtain ⟨dep', hinv'⟩ :=
        bfs_pop m n s dep ⟨vis, par, u :: rest⟩ u rest hinv rfl
      have hred : bfs_loop m n (fuel + 1) ⟨vis, par, u :: rest⟩ =
          bfs_loop m n fuel (bfs_inner m n u ⟨vis, par, rest⟩) := rfl
      rw [hred]
      apply ih _ dep' hinv'
      show bfsMeasure n (bfs_inner m n u ⟨vis, par, rest⟩) < fuel
      have hm1 : bfsMeasure n (bfs_inner m n u ⟨vis, par, rest⟩) ≤
          bfsMeasure n ⟨vis, par, rest⟩ :=
        (scan_measure m n u (List.range n) ⟨vis, par, rest⟩
          (fun v hv => List.mem_range.mp hv) hinv.hvlen).2
      have hm2 : bfsMeasure n (⟨vis, par, u :: rest⟩ : BfsState) =
          bfsMeasure n (⟨vis, par, rest⟩ : BfsState) + 1 := rfl
      omega

/-- The invariant holds after the initialization on lines 295-299. -/
theorem bfs_init_inv (m : List (List Int)) (n s : Nat) (hmn : m.length = n)
    (hs : s < n) :
    BfsInv m n s (fun _ => 0)
      ⟨(List.replicate n 0).set s 1, List.replicate n (-1), [s]⟩ := by
  have hsl : s < (List.replicate n (0 : Nat)).length := by
    rw [List.length_replicate]
    exact hs
  have hviss : ((List.replicate n (0 : Nat)).set s 1).getD s 0 ≠ 0 := by
    rw [getD_set_self _ _ _ _ hsl]
    exact one_ne_zero
  have honly : ∀ w, ((List.replicate n (0 : Nat)).set s 1).getD w 0 ≠ 0 →
      w = s := by
    intro w hw
    by_contra hc
    apply hw
    rw [getD_set_ne _ _ _ _ _ (fun h => hc h.symm),
      List.getD_eq_getElem?_getD, List.getElem?_replicate]
    by_cases hwn : w < n
    · rw [if_pos hwn]
      rfl
    · rw [if_neg hwn]
      rfl
  refine ⟨hmn, ?_, ?_, hs, hviss, ?_, ?_, List.nodup_singleton s, ?_, ?_⟩
  · rw [List.length_set, List.length_replicate]
  · rw [List.length_replicate]
  · intro x hx
    rcases List.mem_cons.mp hx with h | h
    · rw [h]
      exact ⟨hs, hviss⟩
    · exact absurd h (List.not_mem_nil x)
  · exact ⟨0, [s], [], (List.append_nil [s]).symm, fun x _ => rfl,
      fun x hx => absurd hx (List.not_mem_nil x)⟩
  · intro w hw hvw
    have hws := honly w hvw
    subst hws
    refine ⟨IsDist_self m w, Or.inl ⟨rfl, ?_, rfl⟩⟩
    rw [List.getD_eq_getElem?_getD, List.getElem?_replicate, if_pos hw]
    rfl
  · intro w hw hvw hwq
    exact absurd (by rw [honly w hvw]; exact List.mem_cons_self s [] :
      w ∈ [s]) hwq

/-- If the visited set is closed under edges, it absorbs every path that
starts inside it. -/
theorem visited_of_path (m : List (List Int)) (n : Nat) (vis : List Nat)
    (hmn : m.length = n)
    (hclosed : ∀ w, w < n → vis.getD w 0 ≠ 0 → ∀ x, x < n → Adj m w x →
      vis.getD x 0 ≠ 0) :
    ∀ (p : List Nat) (a t : Nat), isPathFrom m a t p → vis.getD a 0 ≠ 0 →
      t < n → vis.getD t 0 ≠ 0 := by
  intro p
  induction p with
  | nil =>
    intro a t hp
    exact absurd rfl (isPathFrom_ne_nil m a t [] hp)
  | cons c p ih =>
    intro a t hp hva htn
    have hca : c = a := by simpa using hp.1
    subst hca
    cases p with
    | nil =>
      have hct : some c = some t := hp.2.1
      injection hct with hct
      subst hct
      exact hva
    | cons d p2 =>
      have hadj : Adj m c d := (List.chain'_cons.mp hp.2.2).1
      have hcn : c < n := by rw [← hmn]; exact Adj_lt m c d hadj
      have hdn : d < n := by
        cases p2 with
        | nil =>
          have hdt : some d = some t := hp.2.1
          injection hdt with hdt
          rw [hdt]
          exact htn
        | cons e p3 =>
          have hde : Adj m d e :=
            (List.chain'_cons.mp (List.chain'_cons.mp hp.2.2).2).1
          rw [← hmn]
          exact Adj_lt m d e hde
      have hvd : vis.getD d 0 ≠ 0 := hclosed c hcn hva d hdn hadj
      have hp2 : isPathFrom m d t (d :: p2) :=
        ⟨rfl, hp.2.1, (List.chain'_cons.mp hp.2.2).2⟩
      exact ih d t hp2 hvd htn

theorem nodup_lt_length_le (l : List Nat) (n : Nat) (hnd : l.Nodup)
    (hlt : ∀ x ∈ l, x < n) : l.length ≤ n := by
  have hsub : l.toFinset ⊆ Finset.range n := fun x hx =>
    Finset.mem_range.mpr (hlt x (List.mem_toFinset.mp hx))
  have := Finset.card_le_card hsub
  rwa [List.toFinset_card_of_nodup hnd, Finset.card_range] at this

/-- The parent chain of any visited vertex has strictly decreasing depths,
so the recorded depth of every visited vertex is below `n`. -/
theorem dep_chain_bound (m : List (List Int)) (n s : Nat) (dep : Nat → Nat)
    (st : BfsState) (hinv : BfsInv m n s dep st) :
    ∀ (k : Nat) (v : Nat), v < n → st.visited.getD v 0 ≠ 0 → dep v = k →
    ∃ l : List Nat, l.Nodup ∧ (∀ x ∈ l, x < n ∧ dep x ≤ k) ∧
      l.length = k + 1 := by
  intro k
  induction k using Nat.strong_induction_on with
  | _ k ih =>
    intro v hv hvis hdep
    obtain ⟨-, hbr⟩ := hinv.hvis v hv hvis
    rcases hbr with ⟨-, -, hd0⟩ | ⟨z, hz, hvz, -, -, hdz⟩
    · have hk0 : k = 0 := by omega
      subst hk0
      refine ⟨[v], List.nodup_singleton v, ?_, rfl⟩
      intro x hx
      rcases List.mem_cons.mp hx with h | h
      · subst h
        exact ⟨hv, by omega⟩
      · exact absurd h (List.not_mem_nil x)
    · have hk1 : 1 ≤ k := by omega
      have hdz' : dep z = k - 1 := by omega
      obtain ⟨l, hnd, hb, hl⟩ := ih (k - 1) (by omega) z hz hvz hdz'
      refine ⟨v :: l, ?_, ?_, ?_⟩
      · rw [List.nodup_cons]
        refine ⟨?_, hnd⟩
        intro hc
        have := (hb v hc).2
        omega
      · intro x hx
        rcases List.mem_cons.mp hx with h | h
        · subst h
          exact ⟨hv, by omega⟩
        · obtain ⟨h1, h2⟩ := hb x h
          exact ⟨h1, by omega⟩
      · have : (v :: l).length = l.length + 1 := rfl
        omega

theorem dep_le_n (m : List (List Int)) (n s : Nat) (dep : Nat → Nat)
    (st : BfsState) (hinv : BfsInv m n s dep st) (v : Nat) (hv : v < n)
    (hvis : st.visited.getD v 0 ≠ 0) : dep v + 1 ≤ n := by
  obtain ⟨l, hnd, hb, hl⟩ :=
    dep_chain_bound m n s dep st hinv (dep v) v hv hvis rfl
  have := nodup_lt_length_le l n hnd (fun x hx => (hb x hx).1)
  omega

/-- The reconstruction loop, run on the final BFS state with enough fuel,
returns the parent chain: a list of `dep v + 1` vertices starting at `v`
whose reverse is a path from `s` to `v`. -/
theorem pathLoop_spec (m : List (List Int)) (n s : Nat) (dep : Nat → Nat)
    (st : BfsState) (hinv : BfsInv m n s dep st) :
    ∀ (k : Nat) (v : Nat), v < n → st.visited.getD v 0 ≠ 0 → dep v = k →
    ∀ (fuel : Nat), k + 2 ≤ fuel → ∀ (acc : List Nat),
    ∃ p, pathLoop st.parent fuel (v : Int) acc = acc ++ p ∧
      p.length = k + 1 ∧ p.head? = some v ∧ isPathFrom m s v p.reverse := by
  intro k
  induction k using Nat.strong_induction_on with
  | _ k ih =>
    intro v hv hvis hdep fuel hfuel acc
    obtain ⟨f, rfl⟩ : ∃ f, fuel = f + 1 := ⟨fuel - 1, by omega⟩
    have hvne : ¬((v : Int) = -1) := by omega
    have hstep : pathLoop st.parent (f + 1) (v : Int) acc =
        pathLoop st.parent f (st.parent.getD ((v : Int)).toNat (-1))
          (acc ++ [((v : Int)).toNat]) := by
      rw [show pathLoop st.parent (f + 1) (v : Int) acc =
        if (v : Int) = -1 then acc
        else pathLoop st.parent f (st.parent.getD ((v : Int)).toNat (-1))
          (acc ++ [((v : Int)).toNat]) from rfl, if_neg hvne]
    have htn : ((v : Int)).toNat = v := Int.toNat_natCast v
    rw [hstep, htn]
    obtain ⟨-, hbr⟩ := hinv.hvis v hv hvis
    rcases hbr with ⟨hvs, hpv, hd0⟩ | ⟨z, hz, hvz, hpv, haz, hdz⟩
    · have hk0 : k = 0 := by omega
      subst hk0
      obtain ⟨f2, rfl⟩ : ∃ f2, f = f2 + 1 := ⟨f - 1, by omega⟩
      rw [hpv, show pathLoop st.parent (f2 + 1) (-1) (acc ++ [v]) = acc ++ [v]
        from by
          rw [show pathLoop st.parent (f2 + 1) (-1) (acc ++ [v]) =
            if (-1 : Int) = -1 then acc ++ [v]
            else pathLoop st.parent f2
              (st.parent.getD ((-1 : Int)).toNat (-1))
              ((acc ++ [v]) ++ [((-1 : Int)).toNat]) from rfl, if_pos rfl]]
      subst hvs
      exact ⟨[v], rfl, rfl, rfl, isPathFrom_single m v⟩
    · have hk1 : 1 ≤ k := by omega
      have hdz' : dep z = k - 1 := by omega
      obtain ⟨p, hpeq, hplen, hphead, hppath⟩ :=
        ih (k - 1) (by omega) z hz hvz hdz' f (by omega) (acc ++ [v])
      rw [hpv, hpeq]
      refine ⟨v :: p, ?_, ?_, rfl, ?_⟩
      · rw [List.append_assoc]
        rfl
      · have : (v :: p).length = p.length + 1 := rfl
        omega
      · rw [List.reverse_cons]
        exact isPathFrom_append_edge m s z v p.reverse hppath haz

/-- C2: with valid `source` and `target`, `bfs_shortest_path` returns a
nonempty sequence iff `target` is reachable from `source`; a nonempty result
is a path from `source` to `target` (starts with `source`, ends with `target`,
consecutive pairs joined by nonzero matrix entries) of minimum length
(equivalently minimum edge count) among all such paths; if `target` is
unreachable the result is the empty sequence. -/
theorem bfs_shortest_path_spec (g : Graph) (s t : Nat)
    (hs : s < (get_adj_matrix g).length) (ht : t < (get_adj_matrix g).length) :
    (bfs_shortest_path g s t ≠ [] ↔ Reachable (get_adj_matrix g) s t) ∧
    (bfs_shortest_path g s t ≠ [] →
      isPathFrom (get_adj_matrix g) s t (bfs_shortest_path g s t) ∧
      ∀ q, isPathFrom (get_adj_matrix g) s t q →
        (bfs_shortest_path g s t).length ≤ q.length) ∧
    (¬ Reachable (get_adj_matrix g) s t → bfs_shortest_path g s t = []) := by
  obtain ⟨dep, hinv, hqe⟩ := bfs_loop_inv (get_adj_matrix g)
    (get_adj_matrix g).length s
    ((get_adj_matrix g).length * (get_adj_matrix g).length +
      (get_adj_matrix g).length + 1)
    ⟨(List.replicate (get_adj_matrix g).length 0).set s 1,
      List.replicate (get_adj_matrix g).length (-1), [s]⟩ (fun _ => 0)
    (bfs_init_inv (get_adj_matrix g) (get_adj_matrix g).length s rfl hs)
    (by
      show (get_adj_matrix g).length *
          unvisCount (get_adj_matrix g).length
            ((List.replicate (get_adj_matrix g).length 0).set s 1) + 1 < _
      have hc : unvisCount (get_adj_matrix g).length
          ((List.replicate (get_adj_matrix g).length 0).set s 1) ≤
          (get_adj_matrix g).length := by
        unfold unvisCount
        calc ((Finset.range (get_adj_matrix g).length).filter _).card
            ≤ (Finset.range (get_adj_matrix g).length).card :=
              Finset.card_filter_le _ _
          _ = (get_adj_matrix g).length := Finset.card_range _
      have := Nat.mul_le_mul_left (get_adj_matrix g).length hc
      omega)
  have hredef : bfs_shortest_path g s t =
      if (bfs_loop (get_adj_matrix g) (get_adj_matrix g).length
          ((get_adj_matrix g).length * (get_adj_matrix g).length +
            (get_adj_matrix g).length + 1)
          ⟨(List.replicate (get_adj_matrix g).length 0).set s 1,
            List.replicate (get_adj_matrix g).length (-1), [s]⟩).visited.getD
          t 0 ≠ 0 then
        (pathLoop (bfs_loop (get_adj_matrix g) (get_adj_matrix g).length
          ((get_adj_matrix g).length * (get_adj_matrix g).length +
            (get_adj_matrix g).length + 1)
          ⟨(List.replicate (get_adj_matrix g).length 0).set s 1,
            List.replicate (get_adj_matrix g).length (-1), [s]⟩).parent
          ((get_adj_matrix g).length + 1) (t : Int) []).reverse
      else [] := rfl
  set stF := bfs_loop (get_adj_matrix g) (get_adj_matrix g).length
    ((get_adj_matrix g).length * (get_adj_matrix g).length +
      (get_adj_matrix g).length + 1)
    ⟨(List.replicate (get_adj_matrix g).length 0).set s 1,
      List.replicate (get_adj_matrix g).length (-1), [s]⟩ with hstF
  have hreach : stF.visited.getD t 0 ≠ 0 ↔ Reachable (get_adj_matrix g) s t := by
    constructor
    · intro hv
      obtain ⟨⟨⟨p, hp, -⟩, -⟩, -⟩ := hinv.hvis t ht hv
      exact ⟨p, hp⟩
    · rintro ⟨p, hp⟩
      refine visited_of_path (get_adj_matrix g) (get_adj_matrix g).length
        stF.visited hinv.hmn ?_ p s t hp hinv.hviss ht
      intro w hw hvw x hx hax
      exact hinv.hdone w hw hvw (by rw [hqe]; exact List.not_mem_nil w) x hx hax
  by_cases hvt : stF.visited.getD t 0 ≠ 0
  · obtain ⟨p, hpeq, hplen, hphead, hppath⟩ :=
      pathLoop_spec (get_adj_matrix g) (get_adj_matrix g).length s dep stF hinv
        (dep t) t ht hvt rfl ((get_adj_matrix g).length + 1)
        (by
          have := dep_le_n (get_adj_matrix g) (get_adj_matrix g).length s dep
            stF hinv t ht hvt
          omega) []
    have hres : bfs_shortest_path g s t = p.reverse := by
      rw [hredef, if_pos hvt, hpeq, List.nil_append]
    have hne : bfs_shortest_path g s t ≠ [] := by
      rw [hres]
      intro hc
      have := congrArg List.length hc
      rw [List.length_reverse, hplen] at this
      exact nomatch this
    refine ⟨⟨fun _ => hreach.mp hvt, fun _ => hne⟩, fun _ => ⟨?_, ?_⟩,
      fun hnr => absurd (hreach.mp hvt) hnr⟩
    · rw [hres]
      exact hppath
    · intro q hq
      rw [hres, List.length_reverse, hplen]
      exact (hinv.hvis t ht hvt).1.2 q hq
  · have hres : bfs_shortest_path g s t = [] := by
      rw [hredef, if_neg hvt]
    have hnr : ¬ Reachable (get_adj_matrix g) s t := fun hr => hvt (hreach.mpr hr)
    exact ⟨⟨fun hne => absurd hres hne, fun hr => absurd hr hnr⟩,
      fun hne => absurd hres hne, fun _ => hres⟩

/-- Witness for `bfs_shortest_path_spec` on the concrete 2-vertex graph with
the single undirected edge `(0, 1)`. -/
theorem bfs_shortest_path_spec_witness :
    ((0 : Nat) < (get_adj_matrix (add_edge (mkGraph 2 false) 0 1 1)).length ∧
      (1 : Nat) < (get_adj_matrix (add_edge (mkGraph 2 false) 0 1 1)).length) ∧
    ((bfs_shortest_path (add_edge (mkGraph 2 false) 0 1 1) 0 1 ≠ [] ↔
        Reachable (get_adj_matrix (add_edge (mkGraph 2 false) 0 1 1)) 0 1) ∧
      (bfs_shortest_path (add_edge (mkGraph 2 false) 0 1 1) 0 1 ≠ [] →
        isPathFrom (get_adj_matrix (add_edge (mkGraph 2 false) 0 1 1)) 0 1
          (bfs_shortest_path (add_edge (mkGraph 2 false) 0 1 1) 0 1) ∧
        ∀ q, isPathFrom (get_adj_matrix (add_edge (mkGraph 2 false) 0 1 1)) 0 1 q →
          (bfs_shortest_path (add_edge (mkGraph 2 false) 0 1 1) 0 1).length ≤
            q.length) ∧
      (¬ Reachable (get_adj_matrix (add_edge (mkGraph 2 false) 0 1 1)) 0 1 →
        bfs_shortest_path (add_edge (mkGraph 2 false) 0 1 1) 0 1 = [])) :=
  ⟨⟨by decide, by decide⟩,
    bfs_shortest_path_spec (add_edge (mkGraph 2 false) 0 1 1) 0 1
      (by decide) (by decide)⟩

/-! ### DFS -/

/-- Local state of `dfs_shortest_path`: `visited`, `parent` and the LIFO
stack (top at the head of the list). -/
structure DfsState where
  visited : List Nat
  parent : List Int
  stack : List Nat
deriving Repr, DecidableEq

/-- The inner neighbor scan of popped vertex `u` (lines 351-360): fresh
neighbors are marked, given parent `u` and pushed on the stack; the scan
`break`s (returning early) right after pushing `target`. -/
def dfs_inner (m : List (List Int)) (target u : Nat) :
    DfsState → List Nat → DfsState
  | st, [] => st
  | st, v :: vs =>
    if getv m u v ≠ 0 ∧ st.visited.getD v 0 = 0 then
      let st' : DfsState :=
        { visited := st.visited.set v 1
          parent := st.parent.set v (u : Int)
          stack := v :: st.stack }
      if v = target then st' else dfs_inner m target u st' vs
    else dfs_inner m target u st vs

/-- The `while (!s.empty())` loop with fuel; `dfs_loop_inv` below proves the
fuel used by `dfs_shortest_path` always suffices. -/
def dfs_loop (m : List (List Int)) (n target : Nat) : Nat → DfsState → DfsState
  | 0, st => st
  | fuel + 1, st =>
    match st.stack with
    | [] => st
    | u :: rest => dfs_loop m n target fuel
        (dfs_inner m target u ⟨st.visited, st.parent, rest⟩ (List.range n))

/-- `dfs_shortest_path(Graph g, int source, int target)` (line 338). -/
def dfs_shortest_path (g : Graph) (source target : Nat) : List Nat :=
  let m := get_adj_matrix g
  let n := m.length
  let st := dfs_loop m n target (n * n + n + 1)
    { visited := (List.replicate n 0).set source 1
      parent := List.replicate n (-1)
      stack := [source] }
  if st.visited.getD target 0 ≠ 0 then
    (pathLoop st.parent (n + 1) (target : Int) []).reverse
  else []

/-- Number of in-range visited vertices (the discovery rank of the next
discovered vertex). -/
def visCount (n : Nat) (vis : List Nat) : Nat :=
  ((Finset.range n).filter (fun v => vis.getD v 0 ≠ 0)).card

theorem visCount_le (n : Nat) (vis : List Nat) : visCount n vis ≤ n := by
  unfold visCount
  calc ((Finset.range n).filter _).card ≤ (Finset.range n).card :=
      Finset.card_filter_le _ _
    _ = n := Finset.card_range n

theorem visCount_set (n : Nat) (vis : List Nat) (v : Nat) (hv : v < n)
    (hvl : v < vis.length) (h0 : vis.getD v 0 = 0) :
    visCount n (vis.set v 1) = visCount n vis + 1 := by
  unfold visCount
  have hset : (Finset.range n).filter (fun x => (vis.set v 1).getD x 0 ≠ 0) =
      insert v ((Finset.range n).filter (fun x => vis.getD x 0 ≠ 0)) := by
    ext x
    simp only [Finset.mem_insert, Finset.mem_filter, Finset.mem_range]
    constructor
    · rintro ⟨hx, hx0⟩
      by_cases hxv : x = v
      · exact Or.inl hxv
      · rw [getD_set_ne _ _ _ _ _ (fun hc => hxv hc.symm)] at hx0
        exact Or.inr ⟨hx, hx0⟩
    · rintro (hxv | ⟨hx, hx0⟩)
      · subst hxv
        refine ⟨hv, ?_⟩
        rw [getD_set_self _ _ _ _ hvl]
        exact one_ne_zero
      · refine ⟨hx, ?_⟩
        have hxv : x ≠ v := by
          intro hc
          subst hc
          exact hx0 h0
        rw [getD_set_ne _ _ _ _ _ (fun hc => hxv hc.symm)]
        exact hx0
  have hnm : v ∉ (Finset.range n).filter (fun x => vis.getD x 0 ≠ 0) := by
    simp only [Finset.mem_filter, Finset.mem_range]
    rintro ⟨-, hc⟩
    exact hc h0
  rw [hset, Finset.card_insert_of_not_mem hnm]

/-- Invariant of the inner DFS scan: `L` is the list of neighbor indices
still to scan; `rnk` records discovery ranks (strictly increasing along
parent links, bounded by the visited count).  The closure properties are
conditioned on the target being still unvisited, because the `break` may
leave the popped vertex's scan incomplete once the target is found. -/
structure DfsScanInv (m : List (List Int)) (n s t u : Nat) (L : List Nat)
    (rnk : Nat → Nat) (st : DfsState) : Prop where
  hmn : m.length = n
  hvlen : st.visited.length = n
  hplen : st.parent.length = n
  hs : s < n
  hviss : st.visited.getD s 0 ≠ 0
  hu : u < n
  hvisu : st.visited.getD u 0 ≠ 0
  hstk : ∀ x ∈ st.stack, x < n ∧ st.visited.getD x 0 ≠ 0
  hrnkb : ∀ w, w < n → st.visited.getD w 0 ≠ 0 → rnk w < visCount n st.visited
  hvis : ∀ w, w < n → st.visited.getD w 0 ≠ 0 →
    Reachable m s w ∧
    (w = s ∧ st.parent.getD w (-1) = -1 ∨
     ∃ z, z < n ∧ st.visited.getD z 0 ≠ 0 ∧ st.parent.getD w (-1) = (z : Int) ∧
       Adj m z w ∧ rnk z < rnk w)
  hdone : st.visited.getD t 0 = 0 →
    ∀ w, w < n → st.visited.getD w 0 ≠ 0 → w ∉ st.stack → w ≠ u →
    ∀ x, x < n → Adj m w x → st.visited.getD x 0 ≠ 0
  hscan : st.visited.getD t 0 = 0 →
    ∀ x, x < n → x ∉ L → Adj m u x → st.visited.getD x 0 ≠ 0

theorem dfs_scan (m : List (List Int)) (n s t u : Nat) :
    ∀ (L : List Nat) (rnk : Nat → Nat) (st : DfsState),
    (∀ v ∈ L, v < n) → DfsScanInv m n s t u L rnk st →
    ∃ rnk', DfsScanInv m n s t u [] rnk' (dfs_inner m t u st L) := by
  intro L
  induction L with
  | nil =>
    intro rnk st _ hinv
    exact ⟨rnk, hinv⟩
  | cons v L ih =>
    intro rnk st hL hinv
    have hvn : v < n := hL v (List.mem_cons_self v L)
    have hLtail : ∀ x ∈ L, x < n := fun x hx => hL x (List.mem_cons_of_mem v hx)
    rw [show dfs_inner m t u st (v :: L) =
      (if getv m u v ≠ 0 ∧ st.visited.getD v 0 = 0 then
        (if v = t then
          (⟨st.visited.set v 1, st.parent.set v (u : Int), v :: st.stack⟩ :
            DfsState)
         else dfs_inner m t u
          ⟨st.visited.set v 1, st.parent.set v (u : Int), v :: st.stack⟩ L)
      else dfs_inner m t u st L) from rfl]
    by_cases hcond : getv m u v ≠ 0 ∧ st.visited.getD v 0 = 0
    · rw [if_pos hcond]
      obtain ⟨hadj, hunvis⟩ := hcond
      have hvvl : v < st.visited.length := by rw [hinv.hvlen]; exact hvn
      have hvpl : v < st.parent.length := by rw [hinv.hplen]; exact hvn
      have hnev : ∀ w, st.visited.getD w 0 ≠ 0 → w ≠ v := by
        intro w hw hc
        rw [hc, hunvis] at hw
        exact hw rfl
      have hmono : ∀ x, st.visited.getD x 0 ≠ 0 →
          (st.visited.set v 1).getD x 0 ≠ 0 := by
        intro x hx
        rw [getD_set_ne _ _ _ _ _ (fun hc => hnev x hx hc.symm)]
        exact hx
      have hvisv : (st.visited.set v 1).getD v 0 ≠ 0 := by
        rw [getD_set_self _ _ _ _ hvvl]
        exact one_ne_zero
      have htmono : (st.visited.set v 1).getD t 0 = 0 →
          st.visited.getD t 0 = 0 := by
        intro h0
        by_contra hc
        exact (hmono t hc) h0
      have hvc : visCount n (st.visited.set v 1) =
          visCount n st.visited + 1 := visCount_set n st.visited v hvn hvvl hunvis
      have hreachv : Reachable m s v := by
        obtain ⟨p, hp⟩ := (hinv.hvis u hinv.hu hinv.hvisu).1
        exact ⟨p ++ [v], isPathFrom_append_edge m s u v p hp hadj⟩
      have hinvBase : DfsScanInv m n s t u L
          (Function.update rnk v (visCount n st.visited))
          ⟨st.visited.set v 1, st.parent.set v (u : Int), v :: st.stack⟩ := by
        refine ⟨hinv.hmn, ?_, ?_, hinv.hs, hmono s hinv.hviss, hinv.hu,
          hmono u hinv.hvisu, ?_, ?_, ?_, ?_, ?_⟩
        · show (st.visited.set v 1).length = n
          rw [List.length_set]
          exact hinv.hvlen
        · show (st.parent.set v (u : Int)).length = n
          rw [List.length_set]
          exact hinv.hplen
        · intro x hx
          rcases List.mem_cons.mp hx with h | h
          · subst h
            exact ⟨hvn, hvisv⟩
          · obtain ⟨h1, h2⟩ := hinv.hstk x h
            exact ⟨h1, hmono x h2⟩
        · intro w hw hvw
          rw [hvc]
          by_cases hwv : w = v
          · subst hwv
            rw [Function.update_same]
            omega
          · rw [Function.update_noteq hwv _ _]
            have hvw' : st.visited.getD w 0 ≠ 0 := by
              rw [getD_set_ne _ _ _ _ _ (fun hc => hwv hc.symm)] at hvw
              exact hvw
            have := hinv.hrnkb w hw hvw'
            omega
        · intro w hw hvw
          by_cases hwv : w = v
          · subst hwv
            refine ⟨hreachv, Or.inr ⟨u, hinv.hu, hmono u hinv.hvisu, ?_, hadj, ?_⟩⟩
            · rw [getD_set_self _ _ _ _ hvpl]
            · rw [Function.update_same,
                Function.update_noteq (hnev u hinv.hvisu) _ _]
              exact hinv.hrnkb u hinv.hu hinv.hvisu
          · have hvw' : st.visited.getD w 0 ≠ 0 := by
              rw [getD_set_ne _ _ _ _ _ (fun hc => hwv hc.symm)] at hvw
              exact hvw
            obtain ⟨hr, hbr⟩ := hinv.hvis w hw hvw'
            refine ⟨hr, ?_⟩
            rcases hbr with ⟨hws, hpw⟩ | ⟨z, hz, hvz, hpw, haz, hrz⟩
            · refine Or.inl ⟨hws, ?_⟩
              rw [getD_set_ne _ _ _ _ _ (fun hc => hwv hc.symm)]
              exact hpw
            · refine Or.inr ⟨z, hz, hmono z hvz, ?_, haz, ?_⟩
              · rw [getD_set_ne _ _ _ _ _ (fun hc => hwv hc.symm)]
                exact hpw
              · rw [Function.update_noteq hwv _ _,
                  Function.update_noteq (hnev z hvz) _ _]
                exact hrz
        · intro h0 w hw hvw hws hwu x hx hax
          have h0' := htmono h0
          have hwv : w ≠ v := by
            intro hc
            exact hws (by rw [hc]; exact List.mem_cons_self v st.stack)
          have hvw' : st.visited.getD w 0 ≠ 0 := by
            rw [getD_set_ne _ _ _ _ _ (fun hc => hwv hc.symm)] at hvw
            exact hvw
          have hws' : w ∉ st.stack := fun hc => hws (List.mem_cons_of_mem v hc)
          exact hmono x (hinv.hdone h0' w hw hvw' hws' hwu x hx hax)
        · intro h0 x hx hxL hax
          by_cases hxv : x = v
          · subst hxv
            exact hvisv
          · have hxL' : x ∉ v :: L := by
              intro hc
              rcases List.mem_cons.mp hc with h | h
              · exact hxv h
              · exact hxL h
            exact hmono x (hinv.hscan (htmono h0) x hx hxL' hax)
      by_cases hvt : v = t
      · rw [if_pos hvt]
        refine ⟨Function.update rnk v (visCount n st.visited), ?_⟩
        refine ⟨hinvBase.hmn, hinvBase.hvlen, hinvBase.hplen, hinvBase.hs,
          hinvBase.hviss, hinvBase.hu, hinvBase.hvisu, hinvBase.hstk,
          hinvBase.hrnkb, hinvBase.hvis, hinvBase.hdone, ?_⟩
        intro h0
        subst hvt
        exact absurd h0 hvisv
      · rw [if_neg hvt]
        exact ih _ _ hLtail hinvBase
    · rw [if_neg hcond]
      refine ih rnk st hLtail ?_
      refine ⟨hinv.hmn, hinv.hvlen, hinv.hplen, hinv.hs, hinv.hviss, hinv.hu,
        hinv.hvisu, hinv.hstk, hinv.hrnkb, hinv.hvis, hinv.hdone, ?_⟩
      intro h0 x hx hxL hax
      by_cases hxv : x = v
      · subst hxv
        by_cases hvx : st.visited.getD x 0 = 0
        · exact absurd ⟨hax, hvx⟩ hcond
        · exact hvx
      · have hxL' : x ∉ v :: L := by
          intro hc
          rcases List.mem_cons.mp hc with h | h
          · exact hxv h
          · exact hxL h
        exact hinv.hscan h0 x hx hxL' hax

/-- The main DFS loop invariant. -/
structure DfsInv (m : List (List Int)) (n s t : Nat) (rnk : Nat → Nat)
    (st : DfsState) : Prop where
  hmn : m.length = n
  hvlen : st.visited.length = n
  hplen : st.parent.length = n
  hs : s < n
  hviss : st.visited.getD s 0 ≠ 0
  hstk : ∀ x ∈ st.stack, x < n ∧ st.visited.getD x 0 ≠ 0
  hrnkb : ∀ w, w < n → st.visited.getD w 0 ≠ 0 → rnk w < visCount n st.visited
  hvis : ∀ w, w < n → st.visited.getD w 0 ≠ 0 →
    Reachable m s w ∧
    (w = s ∧ st.parent.getD w (-1) = -1 ∨
     ∃ z, z < n ∧ st.visited.getD z 0 ≠ 0 ∧ st.parent.getD w (-1) = (z : Int) ∧
       Adj m z w ∧ rnk z < rnk w)
  hdone : st.visited.getD t 0 = 0 →
    ∀ w, w < n → st.visited.getD w 0 ≠ 0 → w ∉ st.stack →
    ∀ x, x < n → Adj m w x → st.visited.getD x 0 ≠ 0

theorem dfs_pop (m : List (List Int)) (n s t : Nat) (rnk : Nat → Nat)
    (st : DfsState) (u : Nat) (rest : List Nat)
    (hinv : DfsInv m n s t rnk st) (hq : st.stack = u :: rest) :
    ∃ rnk', DfsInv m n s t rnk'
      (dfs_inner m t u ⟨st.visited, st.parent, rest⟩ (List.range n)) := by
  have huq : u ∈ st.stack := by rw [hq]; exact List.mem_cons_self u rest
  obtain ⟨hun, hvisu⟩ := hinv.hstk u huq
  have hscan0 : DfsScanInv m n s t u (List.range n) rnk
      ⟨st.visited, st.parent, rest⟩ := by
    refine ⟨hinv.hmn, hinv.hvlen, hinv.hplen, hinv.hs, hinv.hviss, hun, hvisu,
      ?_, hinv.hrnkb, hinv.hvis, ?_, ?_⟩
    · intro x hx
      exact hinv.hstk x (by rw [hq]; exact List.mem_cons_of_mem u hx)
    · intro h0 w hw hvw hwrest hwu x hx hax
      refine hinv.hdone h0 w hw hvw ?_ x hx hax
      rw [hq]
      intro hc
      rcases List.mem_cons.mp hc with h | h
      · exact hwu h
      · exact hwrest h
    · intro h0 x hx hxr
      exact absurd (List.mem_range.mpr hx) hxr
  obtain ⟨rnk', hfin⟩ := dfs_scan m n s t u (List.range n) rnk
    ⟨st.visited, st.parent, rest⟩ (fun v hv => List.mem_range.mp hv) hscan0
  refine ⟨rnk', ?_⟩
  refine ⟨hfin.hmn, hfin.hvlen, hfin.hplen, hfin.hs, hfin.hviss, hfin.hstk,
    hfin.hrnkb, hfin.hvis, ?_⟩
  intro h0 w hw hvw hws x hx hax
  by_cases hwu : w = u
  · subst hwu
    exact hfin.hscan h0 x hx (List.not_mem_nil x) hax
  · exact hfin.hdone h0 w hw hvw hws hwu x hx hax

def dfsMeasure (n : Nat) (st : DfsState) : Nat :=
  n * unvisCount n st.visited + st.stack.length

theorem dfs_inner_measure (m : List (List Int)) (n t u : Nat) :
    ∀ (L : List Nat) (st : DfsState), (∀ v ∈ L, v < n) →
    st.visited.length = n →
    ((dfs_inner m t u st L).visited.length = n ∧
      dfsMeasure n (dfs_inner m t u st L) ≤ dfsMeasure n st) := by
  intro L
  induction L with
  | nil =>
    intro st _ hlen
    exact ⟨hlen, Nat.le_refl _⟩
  | cons v L ih =>
    intro st hL hlen
    have hvn : v < n := hL v (List.mem_cons_self v L)
    rw [show dfs_inner m t u st (v :: L) =
      (if getv m u v ≠ 0 ∧ st.visited.getD v 0 = 0 then
        (if v = t then
          (⟨st.visited.set v 1, st.parent.set v (u : Int), v :: st.stack⟩ :
            DfsState)
         else dfs_inner m t u
          ⟨st.visited.set v 1, st.parent.set v (u : Int), v :: st.stack⟩ L)
      else dfs_inner m t u st L) from rfl]
    by_cases hcond : getv m u v ≠ 0 ∧ st.visited.getD v 0 = 0
    · rw [if_pos hcond]
      have hvl : v < st.visited.length := by rw [hlen]; exact hvn
      have hlen' : (st.visited.set v 1).length = n := by
        rw [List.length_set]
        exact hlen
      have hstep : dfsMeasure n
          (⟨st.visited.set v 1, st.parent.set v (u : Int), v :: st.stack⟩ :
            DfsState) ≤ dfsMeasure n st := by
        show n * unvisCount n (st.visited.set v 1) + (v :: st.stack).length ≤
          n * unvisCount n st.visited + st.stack.length
        have hcnt := unvisCount_set n st.visited v hvn hvl hcond.2
        have hmul : n * unvisCount n st.visited =
            n * unvisCount n (st.visited.set v 1) + n := by
          rw [← hcnt]
          ring
        have hsl : (v :: st.stack).length = st.stack.length + 1 := rfl
        omega
      by_cases hvt : v = t
      · rw [if_pos hvt]
        exact ⟨hlen', hstep⟩
      · rw [if_neg hvt]
        obtain ⟨h1, h2⟩ := ih
          ⟨st.visited.set v 1, st.parent.set v (u : Int), v :: st.stack⟩
          (fun x hx => hL x (List.mem_cons_of_mem v hx)) hlen'
        exact ⟨h1, le_trans h2 hstep⟩
    · rw [if_neg hcond]
      exact ih st (fun x hx => hL x (List.mem_cons_of_mem v hx)) hlen

theorem dfs_loop_inv (m : List (List Int)) (n s t : Nat) :
    ∀ (fuel : Nat) (st : DfsState) (rnk : Nat → Nat),
    DfsInv m n s t rnk st → dfsMeasure n st < fuel →
    ∃ rnk', DfsInv m n s t rnk' (dfs_loop m n t fuel st) ∧
      (dfs_loop m n t fuel st).stack = [] := by
  intro fuel
  induction fuel with
  | zero =>
    intro st rnk _ hm
    omega
  | succ fuel ih =>
    intro st rnk hinv hm
    obtain ⟨vis, par, stk⟩ := st
    cases stk with
    | nil => exact ⟨rnk, hinv, rfl⟩
    | cons u rest =>
      obtain ⟨rnk', hinv'⟩ :=
        dfs_pop m n s t rnk ⟨vis, par, u :: rest⟩ u rest hinv rfl
      have hred : dfs_loop m n t (fuel + 1) ⟨vis, par, u :: rest⟩ =
          dfs_loop m n t fuel
            (dfs_inner m t u ⟨vis, par, rest⟩ (List.range n)) := rfl
      rw [hred]
      apply ih _ rnk' hinv'
      show dfsMeasure n (dfs_inner m t u ⟨vis, par, rest⟩ (List.range n)) < fuel
      have hm1 : dfsMeasure n (dfs_inner m t u ⟨vis, par, rest⟩ (List.range n)) ≤
          dfsMeasure n ⟨vis, par, rest⟩ :=
        (dfs_inner_measure m n t u (List.range n) ⟨vis, par, rest⟩
          (fun v hv => List.mem_range.mp hv) hinv.hvlen).2
      have hm2 : dfsMeasure n (⟨vis, par, u :: rest⟩ : DfsState) =
          dfsMeasure n (⟨vis, par, rest⟩ : DfsState) + 1 := rfl
      omega

/-- The invariant holds after the DFS initialization on lines 340-345. -/
theorem dfs_init_inv (m : List (List Int)) (n s t : Nat) (hmn : m.length = n)
    (hs : s < n) :
    DfsInv m n s t (fun _ => 0)
      ⟨(List.replicate n 0).set s 1, List.replicate n (-1), [s]⟩ := by
  have hsl : s < (List.replicate n (0 : Nat)).length := by
    rw [List.length_replicate]
    exact hs
  have hviss : ((List.replicate n (0 : Nat)).set s 1).getD s 0 ≠ 0 := by
    rw [getD_set_self _ _ _ _ hsl]
    exact one_ne_zero
  have honly : ∀ w, ((List.replicate n (0 : Nat)).set s 1).getD w 0 ≠ 0 →
      w = s := by
    intro w hw
    by_contra hc
    apply hw
    rw [getD_set_ne _ _ _ _ _ (fun h => hc h.symm),
      List.getD_eq_getElem?_getD, List.getElem?_replicate]
    by_cases hwn : w < n
    · rw [if_pos hwn]
      rfl
    · rw [if_neg hwn]
      rfl
  refine ⟨hmn, ?_, ?_, hs, hviss, ?_, ?_, ?_, ?_⟩
  · rw [List.length_set, List.length_replicate]
  · rw [List.length_replicate]
  · intro x hx
    rcases List.mem_cons.mp hx with h | h
    · rw [h]
      exact ⟨hs, hviss⟩
    · exact absurd h (List.not_mem_nil x)
  · intro w hw hvw
    show 0 < visCount n ((List.replicate n 0).set s 1)
    apply Finset.card_pos.mpr
    refine ⟨s, ?_⟩
    simp only [Finset.mem_filter, Finset.mem_range]
    exact ⟨hs, hviss⟩
  · intro w hw hvw
    have hws := honly w hvw
    subst hws
    refine ⟨⟨[w], isPathFrom_single m w⟩, Or.inl ⟨rfl, ?_⟩⟩
    rw [List.getD_eq_getElem?_getD, List.getElem?_replicate, if_pos hw]
    rfl
  · intro h0 w hw hvw hwq
    exact absurd (by rw [honly w hvw]; exact List.mem_cons_self s [] :
      w ∈ [s]) hwq

/-- DFS parent-chain reconstruction: ranks strictly decrease along parent
links, so the loop with enough fuel produces a list whose reverse is a path
from `s` to `v`. -/
theorem dfs_pathLoop_spec (m : List (List Int)) (n s t : Nat)
    (rnk : Nat → Nat) (st : DfsState) (hinv : DfsInv m n s t rnk st) :
    ∀ (k : Nat) (v : Nat), v < n → st.visited.getD v 0 ≠ 0 → rnk v = k →
    ∀ (fuel : Nat), k + 2 ≤ fuel → ∀ (acc : List Nat),
    ∃ p, pathLoop st.parent fuel (v : Int) acc = acc ++ p ∧
      p.head? = some v ∧ isPathFrom m s v p.reverse := by
  intro k
  induction k using Nat.strong_induction_on with
  | _ k ih =>
    intro v hv hvis hrnk fuel hfuel acc
    obtain ⟨f, rfl⟩ : ∃ f, fuel = f + 1 := ⟨fuel - 1, by omega⟩
    have hvne : ¬((v : Int) = -1) := by omega
    have hstep : pathLoop st.parent (f + 1) (v : Int) acc =
        pathLoop st.parent f (st.parent.getD ((v : Int)).toNat (-1))
          (acc ++ [((v : Int)).toNat]) := by
      rw [show pathLoop st.parent (f + 1) (v : Int) acc =
        if (v : Int) = -1 then acc
        else pathLoop st.parent f (st.parent.getD ((v : Int)).toNat (-1))
          (acc ++ [((v : Int)).toNat]) from rfl, if_neg hvne]
    have htn : ((v : Int)).toNat = v := Int.toNat_natCast v
    rw [hstep, htn]
    obtain ⟨-, hbr⟩ := hinv.hvis v hv hvis
    rcases hbr with ⟨hvs, hpv⟩ | ⟨z, hz, hvz, hpv, haz, hrz⟩
    · obtain ⟨f2, rfl⟩ : ∃ f2, f = f2 + 1 := ⟨f - 1, by omega⟩
      rw [hpv, show pathLoop st.parent (f2 + 1) (-1) (acc ++ [v]) = acc ++ [v]
        from by
          rw [show pathLoop st.parent (f2 + 1) (-1) (acc ++ [v]) =
            if (-1 : Int) = -1 then acc ++ [v]
            else pathLoop st.parent f2
              (st.parent.getD ((-1 : Int)).toNat (-1))
              ((acc ++ [v]) ++ [((-1 : Int)).toNat]) from rfl, if_pos rfl]]
      subst hvs
      exact ⟨[v], rfl, rfl, isPathFrom_single m v⟩
    · obtain ⟨p, hpeq, hphead, hppath⟩ :=
        ih (rnk z) (by omega) z hz hvz rfl f (by omega) (acc ++ [v])
      rw [hpv, hpeq]
      refine ⟨v :: p, ?_, rfl, ?_⟩
      · rw [List.append_assoc]
        rfl
      · rw [List.reverse_cons]
        exact isPathFrom_append_edge m s z v p.reverse hppath haz

/-- C6: with valid `source` and `target`, `dfs_shortest_path` returns a
nonempty sequence iff `target` is reachable from `source`; a nonempty result
starts with `source`, ends with `target` and has each consecutive pair joined
by a nonzero matrix entry (no minimality is claimed); if `target` is
unreachable the result is the empty sequence. -/
theorem dfs_shortest_path_spec (g : Graph) (s t : Nat)
    (hs : s < (get_adj_matrix g).length) (ht : t < (get_adj_matrix g).length) :
    (dfs_shortest_path g s t ≠ [] ↔ Reachable (get_adj_matrix g) s t) ∧
    (dfs_shortest_path g s t ≠ [] →
      isPathFrom (get_adj_matrix g) s t (dfs_shortest_path g s t)) ∧
    (¬ Reachable (get_adj_matrix g) s t → dfs_shortest_path g s t = []) := by
  obtain ⟨rnk, hinv, hqe⟩ := dfs_loop_inv (get_adj_matrix g)
    (get_adj_matrix g).length s t
    ((get_adj_matrix g).length * (get_adj_matrix g).length +
      (get_adj_matrix g).length + 1)
    ⟨(List.replicate (get_adj_matrix g).length 0).set s 1,
      List.replicate (get_adj_matrix g).length (-1), [s]⟩ (fun _ => 0)
    (dfs_init_inv (get_adj_matrix g) (get_adj_matrix g).length s t rfl hs)
    (by
      show (get_adj_matrix g).length *
          unvisCount (get_adj_matrix g).length
            ((List.replicate (get_adj_matrix g).length 0).set s 1) + 1 < _
      have hc : unvisCount (get_adj_matrix g).length
          ((List.replicate (get_adj_matrix g).length 0).set s 1) ≤
          (get_adj_matrix g).length := by
        unfold unvisCount
        calc ((Finset.range (get_adj_matrix g).length).filter _).card
            ≤ (Finset.range (get_adj_matrix g).length).card :=
              Finset.card_filter_le _ _
          _ = (get_adj_matrix g).length := Finset.card_range _
      have := Nat.mul_le_mul_left (get_adj_matrix g).length hc
      omega)
  have hredef : dfs_shortest_path g s t =
      if (dfs_loop (get_adj_matrix g) (get_adj_matrix g).length t
          ((get_adj_matrix g).length * (get_adj_matrix g).length +
            (get_adj_matrix g).length + 1)
          ⟨(List.replicate (get_adj_matrix g).length 0).set s 1,
            List.replicate (get_adj_matrix g).length (-1), [s]⟩).visited.getD
          t 0 ≠ 0 then
        (pathLoop (dfs_loop (get_adj_matrix g) (get_adj_matrix g).length t
          ((get_adj_matrix g).length * (get_adj_matrix g).length +
            (get_adj_matrix g).length + 1)
          ⟨(List.replicate (get_adj_matrix g).length 0).set s 1,
            List.replicate (get_adj_matrix g).length (-1), [s]⟩).parent
          ((get_adj_matrix g).length + 1) (t : Int) []).reverse
      else [] := rfl
  set stF := dfs_loop (get_adj_matrix g) (get_adj_matrix g).length t
    ((get_adj_matrix g).length * (get_adj_matrix g).length +
      (get_adj_matrix g).length + 1)
    ⟨(List.replicate (get_adj_matrix g).length 0).set s 1,
      List.replicate (get_adj_matrix g).length (-1), [s]⟩ with hstF
  have hreach : stF.visited.getD t 0 ≠ 0 ↔ Reachable (get_adj_matrix g) s t := by
    constructor
    · intro hv
      exact (hinv.hvis t ht hv).1
    · rintro ⟨p, hp⟩
      by_contra h0
      have hvt : stF.visited.getD t 0 ≠ 0 := by
        refine visited_of_path (get_adj_matrix g) (get_adj_matrix g).length
          stF.visited hinv.hmn ?_ p s t hp hinv.hviss ht
        intro w hw hvw x hx hax
        exact hinv.hdone h0 w hw hvw (by rw [hqe]; exact List.not_mem_nil w)
          x hx hax
      exact hvt h0
  by_cases hvt : stF.visited.getD t 0 ≠ 0
  · obtain ⟨p, hpeq, hphead, hppath⟩ :=
      dfs_pathLoop_spec (get_adj_matrix g) (get_adj_matrix g).length s t rnk
        stF hinv (rnk t) t ht hvt rfl ((get_adj_matrix g).length + 1)
        (by
          have h1 := hinv.hrnkb t ht hvt
          have h2 := visCount_le (get_adj_matrix g).length stF.visited
          omega) []
    have hres : dfs_shortest_path g s t = p.reverse := by
      rw [hredef, if_pos hvt, hpeq, List.nil_append]
    have hpne : p ≠ [] := by
      intro hc
      rw [hc] at hphead
      exact nomatch hphead
    have hne : dfs_shortest_path g s t ≠ [] := by
      rw [hres]
      intro hc
      exact hpne (by
        have := congrArg List.length hc
        rw [List.length_reverse] at this
        exact List.length_eq_zero.mp this)
    refine ⟨⟨fun _ => hreach.mp hvt, fun _ => hne⟩, fun _ => ?_,
      fun hnr => absurd (hreach.mp hvt) hnr⟩
    rw [hres]
    exact hppath
  · have hres : dfs_shortest_path g s t = [] := by
      rw [hredef, if_neg hvt]
    have hnr : ¬ Reachable (get_adj_matrix g) s t := fun hr => hvt (hreach.mpr hr)
    exact ⟨⟨fun hne => absurd hres hne, fun hr => absurd hr hnr⟩,
      fun hne => absurd hres hne, fun _ => hres⟩

/-- Witness for `dfs_shortest_path_spec` on the concrete 2-vertex graph with
the single undirected edge `(0, 1)`. -/
theorem dfs_shortest_path_spec_witness :
    ((0 : Nat) < (get_adj_matrix (add_edge (mkGraph 2 false) 0 1 1)).length ∧
      (1 : Nat) < (get_adj_matrix (add_edge (mkGraph 2 false) 0 1 1)).length) ∧
    ((dfs_shortest_path (add_edge (mkGraph 2 false) 0 1 1) 0 1 ≠ [] ↔
        Reachable (get_adj_matrix (add_edge (mkGraph 2 false) 0 1 1)) 0 1) ∧
      (dfs_shortest_path (add_edge (mkGraph 2 false) 0 1 1) 0 1 ≠ [] →
        isPathFrom (get_adj_matrix (add_edge (mkGraph 2 false) 0 1 1)) 0 1
          (dfs_shortest_path (add_edge (mkGraph 2 false) 0 1 1) 0 1)) ∧
      (¬ Reachable (get_adj_matrix (add_edge (mkGraph 2 false) 0 1 1)) 0 1 →
        dfs_shortest_path (add_edge (mkGraph 2 false) 0 1 1) 0 1 = [])) :=
  ⟨⟨by decide, by decide⟩,
    dfs_shortest_path_spec (add_edge (mkGraph 2 false) 0 1 1) 0 1
      (by decide) (by decide)⟩

/-- `bfs_shortest_path` with its out-of-range vector accesses made explicit:
the initial write `visited[source] = 1` and the final read `visited[target]`
index vectors of size `vertexCount`, so either index out of `[0, n)` is
undefined behavior (modelled as `none`). -/
def bfs_shortest_path_checked (g : Graph) (source target : Nat) :
    Option (List Nat) :=
  if source < (get_adj_matrix g).length ∧ target < (get_adj_matrix g).length
  then some (bfs_shortest_path g source target)
  else none

/-- `dfs_shortest_path` with its out-of-range vector accesses made explicit,
as in `bfs_shortest_path_checked`. -/
def dfs_shortest_path_checked (g : Graph) (source target : Nat) :
    Option (List Nat) :=
  if source < (get_adj_matrix g).length ∧ target < (get_adj_matrix g).length
  then some (dfs_shortest_path g source target)
  else none

/-- C7 is false on the code (code bug): out-of-range indices passed to
`add_edge`, `bfs_shortest_path` or `dfs_shortest_path` hit unchecked
`vector::operator[]` accesses — undefined behavior (modelled `none`), not an
`OutOfRange` condition; no such condition exists anywhere in the code. -/
theorem out_of_range_is_ub :
    add_edge_checked (mkGraph 2 false) 5 0 1 = none ∧
    add_edge_checked (mkGraph 2 false) 0 5 1 = none ∧
    add_edge_checked (mkGraph 2 false) 0 1 1 =
      some (add_edge (mkGraph 2 false) 0 1 1) ∧
    bfs_shortest_path_checked (mkGraph 2 false) 5 0 = none ∧
    bfs_shortest_path_checked (mkGraph 2 false) 0 5 = none ∧
    dfs_shortest_path_checked (mkGraph 2 false) 5 0 = none ∧
    dfs_shortest_path_checked (mkGraph 2 false) 0 5 = none := by
  refine ⟨?_, ?_, ?_, ?_, ?_, ?_, ?_⟩ <;> decide

end AlgLab4
